import Mathlib

/-!
Verification of the Arduino Project Manager server (src/server.py) against its
natural-language specification.

The development is a shallow embedding of the Python code:

* the filesystem below the workspace root (`ARDUINO_DIR`) is a finite tree
  (`FSEntry` / `Root`), with association lists playing the role of directory
  listings and of the Python `dict` caches (insertion keeps first-occurrence
  position and appends fresh keys, matching `dict` semantics);
* relative paths arriving over HTTP are strings, parsed into components on the
  separator character exactly as `pathlib` does (empty components and single
  dots are dropped); path resolution for an existence test follows POSIX
  semantics, where every intermediate component must exist as a directory and
  a parent component steps up one level;
* each HTTP handler becomes a function from a server state (filesystem plus
  the two caches) to an outcome (an `ok` value, a raised `HTTPException` with
  status code and detail, or an unhandled Python exception modelled as
  `crash`) together with the successor state;
* the external `arduino-cli` process is an oracle value (`ProcResult`) giving
  the exit code and captured output of the child process, or the fact that it
  could not be launched.

Project and library names are modelled as single path components (the cache
keys of the Python code are plain strings).
-/

namespace ArduinoServer

/-! ### Lexicographic order on strings (Python `sorted` on `str`) -/

/-- Code-point lexicographic comparison of character lists, as used by the
Python `<=` on `str`: the first differing character decides, a proper prefix
is smaller. -/
def leChars : List Char → List Char → Bool
  | [], _ => true
  | _ :: _, [] => false
  | a :: as, b :: bs =>
    if a.toNat < b.toNat then true
    else if b.toNat < a.toNat then false
    else leChars as bs

/-- String comparison used by the model of Python `sorted`. -/
def strLe (a b : String) : Bool := leChars a.data b.data

theorem leChars_total : ∀ a b, leChars a b = true ∨ leChars b a = true := by
  intro a
  induction a with
  | nil => intro b; left; simp [leChars]
  | cons x xs ih =>
    intro b
    cases b with
    | nil => right; simp [leChars]
    | cons y ys =>
      by_cases hxy : x.toNat < y.toNat
      · left; simp [leChars, hxy]
      · by_cases hyx : y.toNat < x.toNat
        · right; simp [leChars, hyx]
        · rcases ih ys with h | h
          · left; simp [leChars, hxy, hyx, h]
          · right; simp [leChars, hxy, hyx, h]

theorem leChars_trans :
    ∀ a b c, leChars a b = true → leChars b c = true → leChars a c = true := by
  intro a
  induction a with
  | nil => intro b c _ _; simp [leChars]
  | cons x xs ih =>
    intro b c hab hbc
    cases b with
    | nil => simp [leChars] at hab
    | cons y ys =>
      cases c with
      | nil => simp [leChars] at hbc
      | cons z zs =>
        simp only [leChars] at hab hbc ⊢
        rcases Nat.lt_trichotomy x.toNat y.toNat with hxy | hxy | hxy
        · rcases Nat.lt_trichotomy y.toNat z.toNat with hyz | hyz | hyz
          · simp [Nat.lt_trans hxy hyz]
          · simp [hyz ▸ hxy]
          · simp [if_neg (Nat.lt_asymm hyz), if_pos hyz] at hbc
        · rw [hxy]
          have h1 : ¬ x.toNat < y.toNat := by omega
          have h2 : ¬ y.toNat < x.toNat := by omega
          simp only [if_neg h1, if_neg h2] at hab
          rcases Nat.lt_trichotomy y.toNat z.toNat with hyz | hyz | hyz
          · simp [hyz]
          · have h3 : ¬ y.toNat < z.toNat := by omega
            have h4 : ¬ z.toNat < y.toNat := by omega
            simp only [if_neg h3, if_neg h4] at hbc ⊢
            exact ih _ _ hab hbc
          · simp [if_neg (Nat.lt_asymm hyz), if_pos hyz] at hbc
        · simp [if_neg (Nat.lt_asymm hxy), if_pos hxy] at hab

/-- Sortedness relation for the model of Python `sorted`. -/
def strOrd : String → String → Prop := fun a b => strLe a b = true

instance : DecidableRel strOrd := fun a b => inferInstanceAs (Decidable (_ = true))

instance : IsTotal String strOrd := ⟨fun a b => leChars_total a.data b.data⟩

instance : IsTrans String strOrd := ⟨fun a b c => leChars_trans a.data b.data c.data⟩

/-! ### Path components

Relative paths travel over HTTP as strings.  `pathlib` splits them on the
separator character, dropping empty components and single-dot components;
`str` on a relative path joins the components with the separator.  The split
and join are written over `List Char` so that they compute and so that the
round-trip lemma is provable by ordinary induction. -/

/-- Join character-list components with the path separator. -/
def joinSlash : List (List Char) → List Char
  | [] => []
  | [p] => p
  | p :: q :: ps => p ++ '/' :: joinSlash (q :: ps)

/-- Split a character list on the path separator. -/
def splitSlash : List Char → List (List Char)
  | [] => [[]]
  | c :: rest =>
    if c = '/' then [] :: splitSlash rest
    else
      match splitSlash rest with
      | [] => [[c]]
      | p :: ps => (c :: p) :: ps

/-- Render a component list as the relative path string (Python
`str(rel_path)`). -/
def joinParts (ps : List String) : String := ⟨joinSlash (ps.map String.data)⟩

/-- Parse a path string into its components, dropping empty and single-dot
components as `pathlib` does. -/
def pathParts (s : String) : List String :=
  ((splitSlash s.data).map (fun l => (⟨l⟩ : String))).filter
    (fun c => decide (c ≠ "" ∧ c ≠ "."))

/-- Test whether a name starts with the hidden-file marker (Python
`name.startswith('.')`), written over the character list so that it
computes. -/
def startsWithDot (n : String) : Bool :=
  match n.data with
  | [] => false
  | c :: _ => c = '.'

/-- Lowercase a string (Python `name.lower()`), written over the character
list so that it computes. -/
def strLower (s : String) : String := ⟨s.data.map Char.toLower⟩

/-- Validity of a single path component stored in the filesystem tree: a real
directory-entry name is nonempty, contains no separator and is not one of the
two special navigation names. -/
def goodNameB (n : String) : Bool :=
  decide (n ≠ "") && decide ('/' ∉ n.data) && decide (n ≠ ".") && decide (n ≠ "..")

theorem splitSlash_never_nil : ∀ l, splitSlash l ≠ [] := by
  intro l
  induction l with
  | nil => simp [splitSlash]
  | cons c rest ih =>
    by_cases h : c = '/'
    · simp [splitSlash, h]
    · simp only [splitSlash, if_neg h]
      cases hs : splitSlash rest with
      | nil => simp
      | cons p ps => simp

theorem splitSlash_noSlash (p : List Char) (h : '/' ∉ p) : splitSlash p = [p] := by
  induction p with
  | nil => simp [splitSlash]
  | cons c rest ih =>
    have hc : c ≠ '/' := fun hc => h (hc ▸ List.mem_cons_self c rest)
    have hr : '/' ∉ rest := fun hr => h (List.mem_cons_of_mem c hr)
    simp [splitSlash, hc, ih hr]

theorem splitSlash_append (p t : List Char) (h : '/' ∉ p) :
    splitSlash (p ++ '/' :: t) = p :: splitSlash t := by
  induction p with
  | nil => simp [splitSlash]
  | cons c rest ih =>
    have hc : c ≠ '/' := fun hc => h (hc ▸ List.mem_cons_self c rest)
    have hr : '/' ∉ rest := fun hr => h (List.mem_cons_of_mem c hr)
    simp [splitSlash, hc, ih hr]

theorem splitSlash_joinSlash :
    ∀ ps, ps ≠ [] → (∀ p ∈ ps, '/' ∉ p) → splitSlash (joinSlash ps) = ps := by
  intro ps
  induction ps with
  | nil => intro h; exact absurd rfl h
  | cons p qs ih =>
    intro _ hs
    cases qs with
    | nil =>
      exact splitSlash_noSlash p (hs p (List.mem_cons_self _ _))
    | cons q rs =>
      have hp : '/' ∉ p := hs p (List.mem_cons_self _ _)
      have hrest : ∀ x ∈ q :: rs, '/' ∉ x := fun x hx => hs x (List.mem_cons_of_mem _ hx)
      simp only [joinSlash, splitSlash_append p _ hp]
      rw [ih (by simp) hrest]

theorem pathParts_joinParts (ps : List String) (hne : ps ≠ [])
    (h : ∀ p ∈ ps, goodNameB p = true) : pathParts (joinParts ps) = ps := by
  have hdata : (joinParts ps).data = joinSlash (ps.map String.data) := rfl
  have hnos : ∀ l ∈ ps.map String.data, '/' ∉ l := by
    intro l hl
    rcases List.mem_map.mp hl with ⟨p, hp, rfl⟩
    have := h p hp
    simp only [goodNameB, Bool.and_eq_true, decide_eq_true_eq] at this
    exact this.1.1.2
  have hmapne : ps.map String.data ≠ [] := by
    cases ps with
    | nil => exact absurd rfl hne
    | cons a l => simp
  have hsplit : splitSlash (joinParts ps).data = ps.map String.data := by
    rw [hdata, splitSlash_joinSlash _ hmapne hnos]
  unfold pathParts
  rw [hsplit, List.map_map]
  have hid : ((fun l => (⟨l⟩ : String)) ∘ String.data) = id := rfl
  rw [hid, List.map_id]
  apply List.filter_eq_self.mpr
  intro a ha
  have := h a ha
  simp only [goodNameB, Bool.and_eq_true, decide_eq_true_eq] at this
  obtain ⟨⟨⟨h1, _⟩, h2⟩, _⟩ := this
  simp [h1, h2]

theorem pathParts_no_dotdot_of_good (ps : List String) (hne : ps ≠ [])
    (h : ∀ p ∈ ps, goodNameB p = true) : ".." ∉ pathParts (joinParts ps) := by
  rw [pathParts_joinParts ps hne h]
  intro hmem
  have := h _ hmem
  simp [goodNameB] at this

/-- Lexical resolution of relative-path components against a starting
absolute path: a parent component steps up one level, every other component
steps down.  Used to model where `mkdir`/`open` place a written file. -/
def normalizeFrom (acc : List String) : List String → List String
  | [] => acc
  | c :: rest =>
    if c = ".." then normalizeFrom acc.dropLast rest
    else normalizeFrom (acc ++ [c]) rest

/-! ### Filesystem model

The directory tree below `ARDUINO_DIR`.  A directory's children are an
association list from entry name to entry; absolute paths are component lists
from the workspace root. -/

/-- A filesystem entry: a text file with its decoded content, or a directory
with its named children. -/
inductive FSEntry where
  | file (content : String)
  | dir (children : List (String × FSEntry))

/-- The children of the workspace root `ARDUINO_DIR`. -/
abbrev Root := List (String × FSEntry)

/-- Association-list lookup (first match), the model of both directory-child
lookup and Python `dict` indexing. -/
def assocLookup {α : Type} : List (String × α) → String → Option α
  | [], _ => none
  | (n, e) :: rest, m => if n = m then some e else assocLookup rest m

/-- Association-list store: overwrite the first binding of the key in place,
or append a fresh binding, the model of Python `dict` assignment. -/
def assocInsert {α : Type} : List (String × α) → String → α → List (String × α)
  | [], n, e => [(n, e)]
  | (m, x) :: rest, n, e =>
    if m = n then (n, e) :: rest else (m, x) :: assocInsert rest n e

/-- Association-list removal of a key, the model of `dict.pop(name, None)`. -/
def assocErase {α : Type} : List (String × α) → String → List (String × α)
  | [], _ => []
  | (m, x) :: rest, n =>
    if m = n then assocErase rest n else (m, x) :: assocErase rest n

/-- Walk an absolute path down from an entry.  No special components appear
here: callers resolve parent components first. -/
def FSEntry.find? : FSEntry → List String → Option FSEntry
  | e, [] => some e
  | .file _, _ :: _ => none
  | .dir cs, n :: rest =>
    match assocLookup cs n with
    | some e => e.find? rest
    | none => none

/-- Look an absolute path up from the workspace root. -/
def findAt (root : Root) (p : List String) : Option FSEntry :=
  FSEntry.find? (.dir root) p

/-- POSIX path resolution of relative components against the absolute path
`acc`: each intermediate component must exist and be a directory, a parent
component steps up one level, and the final entry must exist.  This is the
model of `Path.exists` on `base / relative`. -/
def resolveAbs (root : Root) : List String → List String → Option (List String)
  | acc, [] => if (findAt root acc).isSome then some acc else none
  | acc, c :: rest =>
    match findAt root acc with
    | some (.dir _) =>
      if c = ".." then resolveAbs root acc.dropLast rest
      else resolveAbs root (acc ++ [c]) rest
    | _ => none

/-- Existence test for `base / relative` (Python `full_path.exists()`). -/
def existsAt (root : Root) (base : List String) (parts : List String) : Bool :=
  (resolveAbs root base parts).isSome

/-- Write a file at an absolute path, creating missing intermediate
directories (the combination of `mkdir(parents=True, exist_ok=True)` on the
parent and `open(..., "w")`).  Fails — a raised `OSError` in the source —
when an intermediate component exists as a file, when the target itself is an
existing directory, or when the path is empty. -/
def setFileAt : FSEntry → List String → String → Option FSEntry
  | .dir cs, [n], c =>
    (match assocLookup cs n with
     | some (.dir _) => none
     | _ => some (.dir (assocInsert cs n (.file c))))
  | .dir cs, n :: m :: rest, c =>
    (match setFileAt ((assocLookup cs n).getD (.dir [])) (m :: rest) c with
     | some e => some (.dir (assocInsert cs n e))
     | none => none)
  | _, _, _ => none

/-- Create a directory at an absolute path with `parents=True, exist_ok=True`
semantics; fails when a component of the path exists as a file. -/
def mkdirsAt : FSEntry → List String → Option FSEntry
  | .dir cs, [] => some (.dir cs)
  | .dir cs, n :: rest =>
    (match mkdirsAt ((assocLookup cs n).getD (.dir [])) rest with
     | some e => some (.dir (assocInsert cs n e))
     | none => none)
  | .file _, _ => none

/-! ### The path scanner (get_files_in_dir, src/server.py lines 74-88) -/

/-- Directory filter of the scanner: `os.walk` prunes subdirectories whose
name starts with a dot. -/
def keepDirB (n : String) : Bool := !(startsWithDot n)

/-- File filter of the scanner: skip names starting with a dot and the two
OS artifact names. -/
def keepFileB (n : String) : Bool :=
  !(startsWithDot n || n == ".DS_Store" || n == "Thumbs.db")

mutual

/-- Component lists of the files that `os.walk` visits below an entry, with
the hidden-directory and artifact-file filters of `get_files_in_dir`
applied.  Walking a plain file or a missing path yields nothing. -/
def walkFiles : FSEntry → List (List String)
  | .file _ => []
  | .dir cs => walkChildren cs

/-- Walk the children of one directory. -/
def walkChildren : List (String × FSEntry) → List (List String)
  | [] => []
  | (n, .file _) :: rest =>
    (if keepFileB n then [[n]] else []) ++ walkChildren rest
  | (n, .dir cs) :: rest =>
    (if keepDirB n then (walkChildren cs).map (fun p => n :: p) else []) ++
      walkChildren rest

end

/-- Model of `get_files_in_dir`: the surviving relative paths, rendered as
strings and sorted lexicographically (Python `sorted`, stable insertion sort
in the model). -/
def get_files_in_dir (e : FSEntry) : List String :=
  ((walkFiles e).map joinParts).insertionSort strOrd

/-- Scan of a subdirectory of the workspace root; `os.walk` on a missing or
non-directory path yields no files. -/
def getFilesInDirAt (root : Root) (p : List String) : List String :=
  match findAt root p with
  | some e => get_files_in_dir e
  | none => []

/-! ### Well-formedness of the modelled filesystem

A real directory tree has distinct child names within a directory, and no
entry is named with the empty string, the separator, or the two navigation
names.  The endpoint theorems assume this of the states they quantify
over. -/

/-- Distinctness of the keys of an association list. -/
def noDupKeys {α : Type} : List (String × α) → Bool
  | [] => true
  | (n, _) :: rest => !(rest.any (fun p => p.1 == n)) && noDupKeys rest

mutual

/-- Well-formedness of a filesystem entry. -/
def wfFS : FSEntry → Bool
  | .file _ => true
  | .dir cs => noDupKeys cs && wfChildren cs

/-- Well-formedness of a children list: good distinct names, well-formed
subtrees. -/
def wfChildren : List (String × FSEntry) → Bool
  | [] => true
  | (n, e) :: rest => goodNameB n && wfFS e && wfChildren rest

end

/-- Well-formedness of the workspace root. -/
def wfRoot (root : Root) : Bool := wfFS (.dir root)

/-! ### Relating the scanner to the tree -/

/-- The paths the scanner is specified to produce: component lists that lead
to a file of the tree, whose directory components survive the hidden-name
filter and whose final component survives the file filter. -/
def SurvivingFile (e : FSEntry) (parts : List String) : Prop :=
  (∃ c, e.find? parts = some (.file c)) ∧ parts ≠ [] ∧
    (∀ d ∈ parts.dropLast, keepDirB d = true) ∧
    (∀ l, parts.getLast? = some l → keepFileB l = true)

theorem assocLookup_eq_none_iff {α : Type} (l : List (String × α)) (n : String) :
    assocLookup l n = none ↔ ∀ p ∈ l, p.1 ≠ n := by
  induction l with
  | nil => simp [assocLookup]
  | cons p rest ih =>
    obtain ⟨m, x⟩ := p
    by_cases h : m = n
    · subst h; simp [assocLookup]
    · simp [assocLookup, h, ih]

theorem noDupKeys_cons {α : Type} {n : String} {x : α} {rest : List (String × α)}
    (h : noDupKeys ((n, x) :: rest) = true) :
    assocLookup rest n = none ∧ noDupKeys rest = true := by
  simp only [noDupKeys, Bool.and_eq_true, Bool.not_eq_true'] at h
  refine ⟨?_, h.2⟩
  rw [assocLookup_eq_none_iff]
  intro p hp
  have := (List.any_eq_false.mp h.1) p hp
  simpa using this

theorem wfFS_dir_iff (cs : List (String × FSEntry)) :
    wfFS (.dir cs) = true ↔ noDupKeys cs = true ∧ wfChildren cs = true := by
  simp [wfFS, Bool.and_eq_true]

theorem wfChildren_cons_iff (n : String) (e : FSEntry) (rest : List (String × FSEntry)) :
    wfChildren ((n, e) :: rest) = true ↔
      goodNameB n = true ∧ wfFS e = true ∧ wfChildren rest = true := by
  simp [wfChildren, Bool.and_eq_true, and_assoc]

theorem walkChildren_ne_nil (cs : List (String × FSEntry)) : [] ∉ walkChildren cs := by
  induction cs using walkChildren.induct with
  | case1 => simp [walkChildren]
  | case2 n content rest ih =>
    simp only [walkChildren]
    intro h
    rcases List.mem_append.mp h with h | h
    · by_cases hk : keepFileB n <;> simp [hk] at h
    · exact ih h
  | case3 n cs' rest ih1 ih2 =>
    simp only [walkChildren]
    intro h
    rcases List.mem_append.mp h with h | h
    · by_cases hk : keepDirB n <;> simp [hk] at h
    · exact ih2 h

/-- Characterization of the scanner's walk: under well-formedness, the walk
produces exactly the surviving file paths of the tree. -/
theorem walkChildren_mem (cs : List (String × FSEntry)) :
    wfFS (.dir cs) = true →
      ∀ parts, parts ∈ walkChildren cs ↔ SurvivingFile (.dir cs) parts := by
  induction cs using walkChildren.induct with
  | case1 =>
    intro _ parts
    simp only [walkChildren, List.not_mem_nil, false_iff]
    rintro ⟨⟨c, hfind⟩, hne, -, -⟩
    cases parts with
    | nil => simp [FSEntry.find?] at hfind
    | cons m p' => simp [FSEntry.find?, assocLookup] at hfind
  | case2 n content rest ih =>
    intro hwf parts
    obtain ⟨hnodup, hchild⟩ := (wfFS_dir_iff _).mp hwf
    obtain ⟨hnone, hnodup'⟩ := noDupKeys_cons hnodup
    obtain ⟨hgood, -, hrest⟩ := (wfChildren_cons_iff _ _ _).mp hchild
    have hwfrest : wfFS (.dir rest) = true := (wfFS_dir_iff _).mpr ⟨hnodup', hrest⟩
    constructor
    · intro hmem
      rcases List.mem_append.mp ((by simpa [walkChildren] using hmem :
          parts ∈ (if keepFileB n then [[n]] else []) ++ walkChildren rest)) with hmem | hmem
      · have hk : keepFileB n = true ∧ parts = [n] := by
          by_cases hkn : keepFileB n
          · simp [hkn] at hmem; exact ⟨hkn, hmem⟩
          · simp [hkn] at hmem
        obtain ⟨hk, rfl⟩ := hk
        refine ⟨⟨content, ?_⟩, by simp, by simp [List.dropLast], ?_⟩
        · simp [FSEntry.find?, assocLookup]
        · intro l hl
          simp only [List.getLast?_singleton, Option.some.injEq] at hl
          exact hl ▸ hk
      · obtain ⟨⟨c, hfind⟩, hne, hdl, hlast⟩ := (ih hwfrest parts).mp hmem
        cases parts with
        | nil => exact absurd rfl hne
        | cons m p' =>
          have hm : n ≠ m := by
            intro heq
            subst heq
            simp only [FSEntry.find?, hnone] at hfind
            exact Option.noConfusion hfind
          refine ⟨⟨c, ?_⟩, hne, hdl, hlast⟩
          simpa [FSEntry.find?, assocLookup, hm] using hfind
    · rintro ⟨⟨c, hfind⟩, hne, hdl, hlast⟩
      cases parts with
      | nil => exact absurd rfl hne
      | cons m p' =>
        by_cases hm : n = m
        · subst hm
          have hfile : FSEntry.find? (.file content) p' = some (.file c) := by
            simpa [FSEntry.find?, assocLookup] using hfind
          cases p' with
          | nil =>
            have hk : keepFileB n = true := hlast n (by simp)
            simp [walkChildren, hk]
          | cons q qs => simp [FSEntry.find?] at hfile
        · have hmem : (m :: p') ∈ walkChildren rest := by
            apply (ih hwfrest (m :: p')).mpr
            refine ⟨⟨c, ?_⟩, hne, hdl, hlast⟩
            simpa [FSEntry.find?, assocLookup, hm] using hfind
          simp only [walkChildren]
          exact List.mem_append.mpr (Or.inr hmem)
  | case3 n cs' rest ih1 ih2 =>
    intro hwf parts
    obtain ⟨hnodup, hchild⟩ := (wfFS_dir_iff _).mp hwf
    obtain ⟨hnone, hnodup'⟩ := noDupKeys_cons hnodup
    obtain ⟨hgood, hwfcs', hrest⟩ := (wfChildren_cons_iff _ _ _).mp hchild
    have hwfrest : wfFS (.dir rest) = true := (wfFS_dir_iff _).mpr ⟨hnodup', hrest⟩
    constructor
    · intro hmem
      rcases List.mem_append.mp ((by simpa [walkChildren] using hmem :
          parts ∈ (if keepDirB n then (walkChildren cs').map (fun p => n :: p) else []) ++
            walkChildren rest)) with hmem | hmem
      · have hk : keepDirB n = true := by
          by_cases hkn : keepDirB n
          · exact hkn
          · simp [hkn] at hmem
        rw [if_pos hk] at hmem
        obtain ⟨p', hp', rfl⟩ := List.mem_map.mp hmem
        obtain ⟨⟨c, hfind⟩, hne', hdl', hlast'⟩ := (ih1 hwfcs' p').mp hp'
        cases p' with
        | nil => exact absurd rfl hne'
        | cons q qs =>
          refine ⟨⟨c, ?_⟩, by simp, ?_, ?_⟩
          · simpa [FSEntry.find?, assocLookup] using hfind
          · intro d hd
            simp only [List.dropLast] at hd
            rcases List.mem_cons.mp hd with rfl | hd
            · exact hk
            · exact hdl' d hd
          · intro l hl
            rw [List.getLast?_cons_cons] at hl
            exact hlast' l hl
      · obtain ⟨⟨c, hfind⟩, hne, hdl, hlast⟩ := (ih2 hwfrest parts).mp hmem
        cases parts with
        | nil => exact absurd rfl hne
        | cons m p' =>
          have hm : n ≠ m := by
            intro heq
            subst heq
            simp only [FSEntry.find?, hnone] at hfind
            exact Option.noConfusion hfind
          refine ⟨⟨c, ?_⟩, hne, hdl, hlast⟩
          simpa [FSEntry.find?, assocLookup, hm] using hfind
    · rintro ⟨⟨c, hfind⟩, hne, hdl, hlast⟩
      cases parts with
      | nil => exact absurd rfl hne
      | cons m p' =>
        by_cases hm : n = m
        · subst hm
          have hsub : FSEntry.find? (.dir cs') p' = some (.file c) := by
            simpa [FSEntry.find?, assocLookup] using hfind
          cases p' with
          | nil => simp [FSEntry.find?] at hsub
          | cons q qs =>
            have hk : keepDirB n = true := by
              apply hdl
              simp [List.dropLast]
            have hmem' : (q :: qs) ∈ walkChildren cs' := by
              apply (ih1 hwfcs' (q :: qs)).mpr
              refine ⟨⟨c, hsub⟩, by simp, ?_, ?_⟩
              · intro d hd
                apply hdl
                simp only [List.dropLast]
                exact List.mem_cons_of_mem _ hd
              · intro l hl
                apply hlast
                rw [List.getLast?_cons_cons]
                exact hl
            have : (n :: q :: qs) ∈ (walkChildren cs').map (fun p => n :: p) :=
              List.mem_map.mpr ⟨q :: qs, hmem', rfl⟩
            simpa [walkChildren, hk] using List.mem_append.mpr (Or.inl this)
        · have hmem : (m :: p') ∈ walkChildren rest := by
            apply (ih2 hwfrest (m :: p')).mpr
            refine ⟨⟨c, ?_⟩, hne, hdl, hlast⟩
            simpa [FSEntry.find?, assocLookup, hm] using hfind
          simp only [walkChildren]
          exact List.mem_append.mpr (Or.inr hmem)

theorem walkFiles_mem (e : FSEntry) (hwf : wfFS e = true) (parts : List String) :
    parts ∈ walkFiles e ↔ SurvivingFile e parts := by
  cases e with
  | file c =>
    simp only [walkFiles, List.not_mem_nil, false_iff]
    rintro ⟨⟨c', hfind⟩, hne, -, -⟩
    cases parts with
    | nil => exact absurd rfl hne
    | cons m p' => simp [FSEntry.find?] at hfind
  | dir cs =>
    simpa [walkFiles] using walkChildren_mem cs hwf parts

/-- Every component of every path the walk produces is a valid directory-entry
name, provided the tree is well formed. -/
theorem walkChildren_good (cs : List (String × FSEntry)) :
    wfFS (.dir cs) = true →
      ∀ parts ∈ walkChildren cs, ∀ c ∈ parts, goodNameB c = true := by
  induction cs using walkChildren.induct with
  | case1 => intro _ parts hp; simp [walkChildren] at hp
  | case2 n content rest ih =>
    intro hwf parts hp c hc
    obtain ⟨hnodup, hchild⟩ := (wfFS_dir_iff _).mp hwf
    obtain ⟨-, hnodup'⟩ := noDupKeys_cons hnodup
    obtain ⟨hgood, -, hrest⟩ := (wfChildren_cons_iff _ _ _).mp hchild
    have hwfrest : wfFS (.dir rest) = true := (wfFS_dir_iff _).mpr ⟨hnodup', hrest⟩
    simp only [walkChildren] at hp
    rcases List.mem_append.mp hp with hp | hp
    · have : parts = [n] := by
        by_cases hk : keepFileB n <;> simp [hk] at hp
        exact hp
      subst this
      simp only [List.mem_singleton] at hc
      exact hc ▸ hgood
    · exact ih hwfrest parts hp c hc
  | case3 n cs' rest ih1 ih2 =>
    intro hwf parts hp c hc
    obtain ⟨hnodup, hchild⟩ := (wfFS_dir_iff _).mp hwf
    obtain ⟨-, hnodup'⟩ := noDupKeys_cons hnodup
    obtain ⟨hgood, hwfcs', hrest⟩ := (wfChildren_cons_iff _ _ _).mp hchild
    have hwfrest : wfFS (.dir rest) = true := (wfFS_dir_iff _).mpr ⟨hnodup', hrest⟩
    simp only [walkChildren] at hp
    rcases List.mem_append.mp hp with hp | hp
    · have hk : keepDirB n = true := by
        by_cases hkn : keepDirB n
        · exact hkn
        · simp [hkn] at hp
      rw [if_pos hk] at hp
      obtain ⟨p', hp', rfl⟩ := List.mem_map.mp hp
      rcases List.mem_cons.mp hc with rfl | hc
      · exact hgood
      · exact ih1 hwfcs' p' hp' c hc
    · exact ih2 hwfrest parts hp c hc

/-- Membership in the scanner's output, under well-formedness: exactly the
rendered surviving file paths. -/
theorem mem_get_files_in_dir (e : FSEntry) (hwf : wfFS e = true) (s : String) :
    s ∈ get_files_in_dir e ↔ ∃ parts, s = joinParts parts ∧ SurvivingFile e parts := by
  unfold get_files_in_dir
  rw [List.mem_insertionSort]
  constructor
  · intro hs
    obtain ⟨parts, hp, rfl⟩ := List.mem_map.mp hs
    exact ⟨parts, rfl, (walkFiles_mem e hwf parts).mp hp⟩
  · rintro ⟨parts, rfl, hS⟩
    exact List.mem_map.mpr ⟨parts, (walkFiles_mem e hwf parts).mpr hS, rfl⟩

/-- Every string the scanner produces over a well-formed tree is the rendering
of a nonempty list of valid components, and its walk path survives. -/
theorem get_files_in_dir_rep (e : FSEntry) (hwf : wfFS e = true) :
    ∀ s ∈ get_files_in_dir e, ∃ parts, s = joinParts parts ∧ parts ≠ [] ∧
      (∀ c ∈ parts, goodNameB c = true) ∧ SurvivingFile e parts := by
  intro s hs
  unfold get_files_in_dir at hs
  rw [List.mem_insertionSort] at hs
  obtain ⟨parts, hp, rfl⟩ := List.mem_map.mp hs
  have hS := (walkFiles_mem e hwf parts).mp hp
  refine ⟨parts, rfl, hS.2.1, ?_, hS⟩
  cases e with
  | file c => simp [walkFiles] at hp
  | dir cs => exact walkChildren_good cs hwf parts (by simpa [walkFiles] using hp)

/-- No string the scanner produces parses to a path containing a parent
component. -/
theorem get_files_in_dir_no_dotdot (e : FSEntry) (hwf : wfFS e = true) :
    ∀ s ∈ get_files_in_dir e, ".." ∉ pathParts s := by
  intro s hs
  obtain ⟨parts, rfl, hne, hgood, -⟩ := get_files_in_dir_rep e hwf s hs
  exact pathParts_no_dotdot_of_good parts hne hgood

/-! ### Path lookup and resolution lemmas -/

theorem find?_append (p q : List String) :
    ∀ e : FSEntry, e.find? (p ++ q) =
      match e.find? p with
      | some x => x.find? q
      | none => none := by
  induction p with
  | nil => intro e; simp [FSEntry.find?]
  | cons n rest ih =>
    intro e
    cases e with
    | file c => simp [FSEntry.find?]
    | dir cs =>
      simp only [List.cons_append, FSEntry.find?]
      cases assocLookup cs n with
      | none => rfl
      | some x => exact ih x

/-- If a dot-dot-free relative path exists below `acc` in the tree, POSIX
resolution reaches exactly the concatenated path. -/
theorem resolveAbs_of_found (root : Root) :
    ∀ parts acc, (∀ c ∈ parts, c ≠ "..") →
      (findAt root (acc ++ parts)).isSome = true →
      resolveAbs root acc parts = some (acc ++ parts) := by
  intro parts
  induction parts with
  | nil =>
    intro acc _ h
    rw [List.append_nil] at h
    simp [resolveAbs, h]
  | cons c rest ih =>
    intro acc hdd h
    have hacc : ∃ cs, findAt root acc = some (.dir cs) := by
      have hsplit := find?_append acc (c :: rest) (.dir root)
      unfold findAt at h ⊢
      rw [hsplit] at h
      cases hfa : FSEntry.find? (.dir root) acc with
      | none => rw [hfa] at h; simp at h
      | some x =>
        rw [hfa] at h
        cases x with
        | file cc => simp [FSEntry.find?] at h
        | dir cs => exact ⟨cs, rfl⟩
    obtain ⟨cs, hacc⟩ := hacc
    have hc : c ≠ ".." := hdd c (List.mem_cons_self _ _)
    rw [resolveAbs, hacc]
    simp only [if_neg hc]
    have := ih (acc ++ [c]) (fun d hd => hdd d (List.mem_cons_of_mem _ hd))
      (by simpa [List.append_assoc] using h)
    simpa [List.append_assoc] using this

/-- Successful resolution of a relative path implies its base path exists. -/
theorem findAt_base_of_resolve (root : Root) :
    ∀ parts acc, (resolveAbs root acc parts).isSome = true →
      (findAt root acc).isSome = true := by
  intro parts
  cases parts with
  | nil =>
    intro acc h
    rw [resolveAbs] at h
    by_cases hf : (findAt root acc).isSome
    · exact hf
    · rw [if_neg hf] at h; simp at h
  | cons c rest =>
    intro acc h
    rw [resolveAbs] at h
    cases hfa : findAt root acc with
    | none => rw [hfa] at h; simp at h
    | some x =>
      cases x with
      | file cc => rw [hfa] at h; simp at h
      | dir cs => simp [hfa]

/-- Well-formedness descends along child lookup. -/
theorem wfChildren_lookup (cs : List (String × FSEntry)) (n : String) (y : FSEntry) :
    wfChildren cs = true → assocLookup cs n = some y → wfFS y = true := by
  induction cs with
  | nil => intro _ h; simp [assocLookup] at h
  | cons p rest ih =>
    obtain ⟨m, x⟩ := p
    intro hwf hl
    obtain ⟨-, hx, hrest⟩ := (wfChildren_cons_iff _ _ _).mp hwf
    by_cases hm : m = n
    · subst hm
      have hxy : x = y := by simpa [assocLookup] using hl
      exact hxy ▸ hx
    · simp only [assocLookup, if_neg hm] at hl
      exact ih hrest hl

theorem wfFS_find? (p : List String) :
    ∀ e x, wfFS e = true → e.find? p = some x → wfFS x = true := by
  induction p with
  | nil =>
    intro e x hwf h
    simp only [FSEntry.find?, Option.some.injEq] at h
    exact h ▸ hwf
  | cons n rest ih =>
    intro e x hwf h
    cases e with
    | file c => simp [FSEntry.find?] at h
    | dir cs =>
      simp only [FSEntry.find?] at h
      cases hl : assocLookup cs n with
      | none => rw [hl] at h; exact Option.noConfusion h
      | some y =>
        rw [hl] at h
        have hy : wfFS y = true :=
          wfChildren_lookup cs n y ((wfFS_dir_iff cs).mp hwf).2 hl
        exact ih y x hy h

/-! ### Association-list lemmas for the caches -/

theorem assocLookup_insert_self {α : Type} (l : List (String × α)) (n : String) (e : α) :
    assocLookup (assocInsert l n e) n = some e := by
  induction l with
  | nil => simp [assocInsert, assocLookup]
  | cons p rest ih =>
    obtain ⟨m, x⟩ := p
    by_cases hm : m = n
    · simp [assocInsert, hm, assocLookup]
    · simp [assocInsert, hm, assocLookup, ih]

theorem assocLookup_insert_ne {α : Type} (l : List (String × α)) (n m : String) (e : α)
    (h : m ≠ n) : assocLookup (assocInsert l n e) m = assocLookup l m := by
  induction l with
  | nil => simp [assocInsert, assocLookup, Ne.symm h]
  | cons p rest ih =>
    obtain ⟨k, x⟩ := p
    by_cases hk : k = n
    · subst hk
      simp [assocInsert, assocLookup, Ne.symm h]
    · by_cases hkm : k = m
      · subst hkm
        simp [assocInsert, hk, assocLookup]
      · simp [assocInsert, hk, assocLookup, hkm, ih]

theorem assocLookup_erase_self {α : Type} (l : List (String × α)) (n : String) :
    assocLookup (assocErase l n) n = none := by
  induction l with
  | nil => simp [assocErase, assocLookup]
  | cons p rest ih =>
    obtain ⟨m, x⟩ := p
    by_cases hm : m = n
    · simp [assocErase, hm, ih]
    · simp [assocErase, hm, assocLookup, ih]

theorem assocLookup_erase_ne {α : Type} (l : List (String × α)) (n m : String)
    (h : m ≠ n) : assocLookup (assocErase l n) m = assocLookup l m := by
  induction l with
  | nil => simp [assocErase, assocLookup]
  | cons p rest ih =>
    obtain ⟨k, x⟩ := p
    by_cases hk : k = n
    · subst hk
      simp [assocErase, assocLookup, Ne.symm h, ih]
    · simp [assocErase, hk, assocLookup, ih]

theorem assocLookup_mem {α : Type} (l : List (String × α)) (n : String) (e : α)
    (h : assocLookup l n = some e) : (n, e) ∈ l := by
  induction l with
  | nil => simp [assocLookup] at h
  | cons p rest ih =>
    obtain ⟨m, x⟩ := p
    by_cases hm : m = n
    · subst hm
      have hxe : x = e := by simpa [assocLookup] using h
      subst hxe
      exact List.mem_cons_self _ _
    · simp only [assocLookup, if_neg hm] at h
      exact List.mem_cons_of_mem _ (ih h)

/-! ### Server state and endpoints (src/server.py)

The Python module keeps two process-wide `dict` caches next to the workspace
filesystem; an endpoint reads and mutates them.  `HTTPException` is an `err`
outcome with status code and detail; an uncaught Python exception (such as
the `KeyError` a missing `dict` key would raise) is a `crash` outcome. -/

/-- A cache value: `{"path": Path, "files": [str]}`. -/
structure CacheEntry where
  path : List String
  files : List String

/-- A cache table (`PROJECT_CACHE` / `LIBRARY_CACHE`), a Python `dict`. -/
abbrev Cache := List (String × CacheEntry)

/-- The mutable state an endpoint sees: the tree below `ARDUINO_DIR` and the
two caches. -/
structure ServerState where
  root : Root
  projectCache : Cache
  libraryCache : Cache

/-- Endpoint outcome: a 200 response value, a raised `HTTPException`, or an
unhandled exception. -/
inductive Outcome (α : Type) where
  | ok (val : α)
  | err (code : Nat) (detail : String)
  | crash (msg : String)

/-- The exclusion set of `build_initial_project_cache`. -/
def excluded_dirs : List String := ["hardware", "libraries", "tools"]

def isDirB : FSEntry → Bool
  | .dir _ => true
  | .file _ => false

/-- Model of `build_initial_project_cache` (lines 93-115): clear the table,
then one entry per immediate subdirectory of the root that is a directory,
is not hidden and whose lowercased name is not excluded. -/
def build_initial_project_cache (root : Root) : Cache :=
  root.foldl
    (fun cache item =>
      if isDirB item.2 && !(startsWithDot item.1) && !(excluded_dirs.contains (strLower item.1))
      then assocInsert cache item.1 ⟨[item.1], get_files_in_dir item.2⟩
      else cache)
    []

/-- Model of `build_library_cache` (lines 137-158): one entry per non-hidden
immediate subdirectory of `ARDUINO_DIR/libraries`.  The `mkdir` the source
performs when the folder is missing is omitted: it affects no produced
entry. -/
def build_library_cache (root : Root) : Cache :=
  match assocLookup root "libraries" with
  | some (.dir libs) =>
    libs.foldl
      (fun cache item =>
        if isDirB item.2 && !(startsWithDot item.1)
        then assocInsert cache item.1 ⟨["libraries", item.1], get_files_in_dir item.2⟩
        else cache)
      []
  | _ => []

/-- Model of `refresh_project_cache` (lines 117-132): drop the entry when the
directory is gone, otherwise store a fresh scan. -/
def refresh_project_cache (s : ServerState) (project_name : String) : ServerState :=
  match findAt s.root [project_name] with
  | none => { s with projectCache := assocErase s.projectCache project_name }
  | some e =>
    { s with projectCache :=
        assocInsert s.projectCache project_name ⟨[project_name], get_files_in_dir e⟩ }

/-- Response body of the two file-reading endpoints. -/
structure FileResponse where
  file_path : String
  content : String

/-- Opening and reading `base / fp` as text; any failure (missing file,
directory target) is the caught-exception 500 of the source. -/
def readContent (root : Root) (base : List String) (fp : String) : Outcome FileResponse :=
  match resolveAbs root base (pathParts fp) with
  | some p =>
    (match findAt root p with
     | some (.file c) => .ok ⟨fp, c⟩
     | _ => .err 500 "read failed")
  | none => .err 500 "read failed"

/-- Body of the `/read_file` endpoint after its opening
miss-then-refresh-then-recheck of the project name (lines 294-318). -/
def read_file_core (s1 : ServerState) (project_name file_path : String) :
    Outcome FileResponse × ServerState :=
  match assocLookup s1.projectCache project_name with
  | none => (.err 404 "Project folder not found", s1)
  | some entry =>
    if file_path ∈ entry.files then
      (readContent s1.root entry.path file_path, s1)
    else if existsAt s1.root entry.path (pathParts file_path) = false then
      (.err 404 "File not found in project", s1)
    else
      let s2 := refresh_project_cache s1 project_name
      match assocLookup s2.projectCache project_name with
      | none => (.crash "KeyError", s2)
      | some entry2 =>
        if file_path ∈ entry2.files then
          (readContent s2.root entry2.path file_path, s2)
        else (.err 404 "File not found in project after refresh", s2)

/-- Model of the `/read_file` endpoint (lines 286-318). -/
def read_file (s0 : ServerState) (project_name file_path : String) :
    Outcome FileResponse × ServerState :=
  let s1 := match assocLookup s0.projectCache project_name with
            | none => refresh_project_cache s0 project_name
            | some _ => s0
  read_file_core s1 project_name file_path

/-- Model of the `/list_files_in_project` endpoint (lines 269-284). -/
def list_files_in_project (s0 : ServerState) (project_name : String) :
    Outcome (List String) × ServerState :=
  match assocLookup s0.projectCache project_name with
  | some entry => (.ok entry.files, s0)
  | none =>
    match findAt s0.root [project_name] with
    | none => (.err 404 "Project folder not found", s0)
    | some _ =>
      let s1 := refresh_project_cache s0 project_name
      match assocLookup s1.projectCache project_name with
      | some entry => (.ok entry.files, s1)
      | none => (.crash "KeyError", s1)

/-- Model of the `/list_files_in_library` endpoint (lines 420-430): a miss in
the library cache is an immediate 404, with no disk check and no refresh. -/
def list_files_in_library (s : ServerState) (library_name : String) : Outcome (List String) :=
  match assocLookup s.libraryCache library_name with
  | none => .err 404 "Library not found"
  | some entry => .ok entry.files

/-- Model of the `/read_library_file` endpoint (lines 432-454). -/
def read_library_file (s : ServerState) (library_name file_path : String) :
    Outcome FileResponse :=
  match assocLookup s.libraryCache library_name with
  | none => .err 404 "Library not found in cache"
  | some entry =>
    if file_path ∈ entry.files then readContent s.root entry.path file_path
    else .err 404 "File not found in this library"

/-- Model of the helper `create_or_update_file` (lines 230-235): resolve the
relative path (parent components step up), create missing intermediate
directories, write the target.  `none` is a raised `OSError`. -/
def create_or_update_file (root : Root) (base_dir : List String)
    (relative_file_path : String) (content : String) : Option Root :=
  match setFileAt (.dir root) (normalizeFrom base_dir (pathParts relative_file_path))
      content with
  | some (.dir cs) => some cs
  | _ => none

/-- Model of the `/create_project` endpoint (lines 320-339). -/
def create_project (s : ServerState) (project_name sketch_content : String)
    (file_path : Option String) : Outcome String × ServerState :=
  match findAt s.root [project_name] with
  | some _ => (.err 400 "Project already exists", s)
  | none =>
    let fp := file_path.getD (project_name ++ ".ino")
    match mkdirsAt (.dir s.root) [project_name] with
    | some (.dir root1) =>
      (match create_or_update_file root1 [project_name] fp sketch_content with
       | some root2 =>
         let s' := refresh_project_cache { s with root := root2 } project_name
         (.ok ("Created project " ++ project_name), s')
       | none => (.err 500 "Failed to create project", { s with root := root1 }))
    | _ => (.err 500 "Failed to create project", s)

/-- Model of the `/update_sketch` endpoint (lines 341-355). -/
def update_sketch (s : ServerState) (project_name sketch_content : String)
    (file_path : Option String) : Outcome String × ServerState :=
  match findAt s.root [project_name] with
  | none => (.err 404 "Project or sketch file not found", s)
  | some _ =>
    let fp := file_path.getD (project_name ++ ".ino")
    match create_or_update_file s.root [project_name] fp sketch_content with
    | some root1 =>
      let s' := refresh_project_cache { s with root := root1 } project_name
      (.ok ("Updated file " ++ fp), s')
    | none => (.err 500 "update failed", s)

/-- What happened to the spawned child process: it ran to completion with an
exit code and captured output, or it could not be started at all. -/
inductive ProcResult where
  | exited (code : Nat) (stdout : String) (stderr : String)
  | launchFailure (msg : String)

/-- The dictionary `run_command` returns. -/
structure CmdResult where
  status : String
  output : String
  error : String

/-- Model of `run_command` (lines 213-228): `check=True` raises on a nonzero
exit code, which the handler catches and turns into an error result carrying
the captured standard error; a launch failure is caught the same way and
carries the exception text; exit code zero yields a success result carrying
standard output. -/
def run_command (r : ProcResult) : CmdResult :=
  match r with
  | .exited 0 out _ => ⟨"success", out, ""⟩
  | .exited (_ + 1) _ err => ⟨"error", "", err⟩
  | .launchFailure msg => ⟨"error", "", msg⟩

/-- Body shapes the `/compile_project` endpoint can return with status 200. -/
inductive ToolResponse where
  | errBody (message : String)
  | okBody (r : CmdResult)

/-- Model of the `/compile_project` endpoint (lines 357-374); the outcome of
the external tool is the oracle argument `proc`. -/
def compile_project (s : ServerState) (project_name : String) (proc : ProcResult) :
    Outcome ToolResponse :=
  if (findAt s.root [project_name]).isSome &&
      (findAt s.root [project_name, project_name ++ ".ino"]).isSome then
    let result := run_command proc
    if result.status = "error" then .ok (.errBody result.error)
    else .ok (.okBody result)
  else .err 404 "Project or sketch file not found"

/-- The part of the example tree that the copy loop of
`copy_library_example` visits: hidden directories are pruned, hidden and
artifact files are skipped. -/
def filterChildren : List (String × FSEntry) → List (String × FSEntry)
  | [] => []
  | (n, .file c) :: rest =>
    (if keepFileB n then [(n, FSEntry.file c)] else []) ++ filterChildren rest
  | (n, .dir cs) :: rest =>
    (if keepDirB n then [(n, FSEntry.dir (filterChildren cs))] else []) ++
      filterChildren rest

/-- Merge the (already filtered) source children into the destination
children: files overwrite files, directories are entered with
`exist_ok` semantics.  `none` is the exception `shutil.copy2` or `mkdir`
raises when a file and a directory of the same name collide. -/
def mergeChildren : List (String × FSEntry) → List (String × FSEntry) →
    Option (List (String × FSEntry))
  | dest, [] => some dest
  | dest, (n, .file c) :: rest =>
    (match assocLookup dest n with
     | some (.dir _) => none
     | _ => mergeChildren (assocInsert dest n (.file c)) rest)
  | dest, (n, .dir cs) :: rest =>
    (match (match assocLookup dest n with
            | some (.dir d) => some d
            | some (.file _) => none
            | none => some ([] : List (String × FSEntry))) with
     | none => none
     | some d =>
       match mergeChildren d cs with
       | none => none
       | some d' => mergeChildren (assocInsert dest n (.dir d')) rest)

/-- Model of the `/copy_library_example` endpoint (lines 459-500). -/
def copy_library_example (s : ServerState)
    (library_name example_folder new_project_name : String) :
    Outcome String × ServerState :=
  match assocLookup s.libraryCache library_name with
  | none => (.err 404 "Library not found", s)
  | some lib =>
    match findAt s.root (lib.path ++ "examples" :: pathParts example_folder) with
    | some (.dir srcCs) =>
      (match mkdirsAt (.dir s.root) [new_project_name] with
       | some (.dir root1) =>
         (match assocLookup root1 new_project_name with
          | some (.dir destCs) =>
            (match mergeChildren destCs (filterChildren srcCs) with
             | some destCs' =>
               let root2 := assocInsert root1 new_project_name (.dir destCs')
               let s' := refresh_project_cache { s with root := root2 } new_project_name
               (.ok ("Copied example " ++ example_folder), s')
             | none => (.crash "copy failed", { s with root := root1 }))
          | _ => (.crash "missing destination", { s with root := root1 }))
       | _ => (.crash "FileExistsError", s))
    | _ => (.err 404 "Example folder not found in library", s)

/-! ### Behaviour of the single-entry refresh -/

theorem refresh_root_eq (s : ServerState) (pn : String) :
    (refresh_project_cache s pn).root = s.root ∧
    (refresh_project_cache s pn).libraryCache = s.libraryCache := by
  cases hf : findAt s.root [pn] <;> simp [refresh_project_cache, hf]

theorem refresh_lookup_self (s : ServerState) (pn : String) :
    assocLookup (refresh_project_cache s pn).projectCache pn =
      match findAt s.root [pn] with
      | some e => some ⟨[pn], get_files_in_dir e⟩
      | none => none := by
  cases hf : findAt s.root [pn] <;>
    simp [refresh_project_cache, hf, assocLookup_insert_self, assocLookup_erase_self]

theorem refresh_lookup_ne (s : ServerState) (pn other : String) (h : other ≠ pn) :
    assocLookup (refresh_project_cache s pn).projectCache other =
      assocLookup s.projectCache other := by
  cases hf : findAt s.root [pn] <;>
    simp [refresh_project_cache, hf, assocLookup_insert_ne _ _ _ _ h,
      assocLookup_erase_ne _ _ _ h]

/-! ### Claims -/

/-- C7: the external tool invoker never throws across its boundary: it
returns a success result carrying the captured standard output exactly when
the child exits with code zero (standard error not inspected there), an error
result carrying the captured standard error on any nonzero exit, and an error
result carrying the exception's description when the process cannot be
started; the compile endpoint relays an error result as a normal 200 response
whose body has status error, not as an HTTP error status. -/
theorem C7_run_command_shape (r : ProcResult) (s : ServerState) (pn : String)
    (hdir : (findAt s.root [pn]).isSome = true)
    (hino : (findAt s.root [pn, pn ++ ".ino"]).isSome = true) :
    ((run_command r).status = "success" ∨ (run_command r).status = "error") ∧
    ((run_command r).status = "success" ↔ ∃ out err, r = .exited 0 out err) ∧
    (∀ out err, r = .exited 0 out err → run_command r = ⟨"success", out, ""⟩) ∧
    (∀ c out err, r = .exited (c + 1) out err → run_command r = ⟨"error", "", err⟩) ∧
    (∀ msg, r = .launchFailure msg → run_command r = ⟨"error", "", msg⟩) ∧
    ((run_command r).status = "error" →
      compile_project s pn r = .ok (.errBody (run_command r).error)) := by
  rcases r with ⟨code, out, err⟩ | msg
  · cases code with
    | zero => simp [run_command, compile_project, hdir, hino]
    | succ c => simp [run_command, compile_project, hdir, hino]
  · simp [run_command, compile_project, hdir, hino]

/-- Witness for C7 at a concrete state and a failing compilation. -/
theorem C7_witness :
    (findAt ([("Blink", FSEntry.dir [("Blink.ino", FSEntry.file "void loop()")])] : Root)
        ["Blink"]).isSome = true ∧
    (findAt ([("Blink", FSEntry.dir [("Blink.ino", FSEntry.file "void loop()")])] : Root)
        ["Blink", "Blink" ++ ".ino"]).isSome = true ∧
    ((run_command (.exited 1 "" "compile error")).status = "success" ∨
      (run_command (.exited 1 "" "compile error")).status = "error") := by
  have h1 : (findAt ([("Blink", FSEntry.dir [("Blink.ino", FSEntry.file "void loop()")])] :
      Root) ["Blink"]).isSome = true := by
    simp [findAt, FSEntry.find?, assocLookup]
  have h2 : (findAt ([("Blink", FSEntry.dir [("Blink.ino", FSEntry.file "void loop()")])] :
      Root) ["Blink", "Blink" ++ ".ino"]).isSome = true := by
    simp [findAt, FSEntry.find?, assocLookup]
  exact ⟨h1, h2,
    (C7_run_command_shape (.exited 1 "" "compile error")
      ⟨[("Blink", FSEntry.dir [("Blink.ino", FSEntry.file "void loop()")])], [], []⟩
      "Blink" h1 h2).1⟩

/-- C6: creating a project whose directory already exists raises the conflict
outcome (HTTP 400) and returns with the server state — filesystem and both
cache tables — exactly as it was. -/
theorem C6_create_project_conflict (s : ServerState) (pn content : String)
    (fp : Option String) (hexists : (findAt s.root [pn]).isSome = true) :
    create_project s pn content fp = (.err 400 "Project already exists", s) := by
  obtain ⟨e, he⟩ := Option.isSome_iff_exists.mp hexists
  simp [create_project, he]

/-- Witness for C6: creating the existing project Blink fails with 400 and
leaves the state untouched. -/
theorem C6_witness :
    (findAt ([("Blink", FSEntry.dir [])] : Root) ["Blink"]).isSome = true ∧
    create_project ⟨[("Blink", FSEntry.dir [])], [], []⟩ "Blink" "x" none =
      (.err 400 "Project already exists", ⟨[("Blink", FSEntry.dir [])], [], []⟩) := by
  have h1 : (findAt ([("Blink", FSEntry.dir [])] : Root) ["Blink"]).isSome = true := by
    simp [findAt, FSEntry.find?, assocLookup]
  exact ⟨h1, C6_create_project_conflict ⟨[("Blink", FSEntry.dir [])], [], []⟩ "Blink" "x" none h1⟩

/-- C5: the single-entry refresh on a name whose directory no longer exists
removes exactly that entry (a later lookup returns absent, and evicting an
absent name is not an error); when the directory exists the entry is stored
or overwritten with a fresh scan, and in either case no other cache entry and
no filesystem state is touched. -/
theorem C5_refresh_upsert_or_evict (s : ServerState) (pn : String) :
    (findAt s.root [pn] = none →
      assocLookup (refresh_project_cache s pn).projectCache pn = none) ∧
    (∀ e, findAt s.root [pn] = some e →
      assocLookup (refresh_project_cache s pn).projectCache pn =
        some ⟨[pn], get_files_in_dir e⟩) ∧
    (∀ other, other ≠ pn →
      assocLookup (refresh_project_cache s pn).projectCache other =
        assocLookup s.projectCache other) ∧
    (refresh_project_cache s pn).root = s.root ∧
    (refresh_project_cache s pn).libraryCache = s.libraryCache := by
  refine ⟨?_, ?_, ?_, (refresh_root_eq s pn).1, (refresh_root_eq s pn).2⟩
  · intro h
    rw [refresh_lookup_self, h]
  · intro e h
    rw [refresh_lookup_self, h]
  · intro other h
    exact refresh_lookup_ne s pn other h

/-- Witness for C5: evicting the stale entry of a deleted project directory,
with an unrelated entry untouched. -/
theorem C5_witness :
    findAt ([] : Root) ["Gone"] = none ∧
    assocLookup (refresh_project_cache
        ⟨[], [("Gone", ⟨["Gone"], ["Gone.ino"]⟩), ("Other", ⟨["Other"], []⟩)], []⟩
        "Gone").projectCache "Gone" = none ∧
    assocLookup (refresh_project_cache
        ⟨[], [("Gone", ⟨["Gone"], ["Gone.ino"]⟩), ("Other", ⟨["Other"], []⟩)], []⟩
        "Gone").projectCache "Other" = some ⟨["Other"], []⟩ := by
  have hmiss : findAt ([] : Root) ["Gone"] = none := by
    simp [findAt, FSEntry.find?, assocLookup]
  have h := C5_refresh_upsert_or_evict
    ⟨[], [("Gone", ⟨["Gone"], ["Gone.ino"]⟩), ("Other", ⟨["Other"], []⟩)], []⟩ "Gone"
  refine ⟨hmiss, h.1 hmiss, ?_⟩
  rw [h.2.2.1 "Other" (by decide)]
  simp [assocLookup]

/-- Demonstration tree for the scanner claims: a hidden directory with a
file inside it, an artifact file, a subdirectory holding an artifact and a
real file, and a top-level real file. -/
def scannerDemo : FSEntry :=
  .dir [(".git", .dir [("x", .file "1")]),
        ("Thumbs.db", .file "2"),
        ("sub", .dir [(".DS_Store", .file "3"), ("b.txt", .file "4")]),
        ("a.txt", .file "5")]

/-- C3: on any well-formed directory tree, the scanner's output is sorted
lexicographically on the relative path string, is exactly the set of
rendered file paths beneath the base that survive the filters (so it is
expressed relative to the base), contains no path with a component starting
with a dot and no path ending in either OS artifact name at any depth, and is
empty — not an error — when no file survives. -/
theorem C3_path_scanner (t : FSEntry) (hwf : wfFS t = true) :
    (get_files_in_dir t).Sorted strOrd ∧
    (∀ s, s ∈ get_files_in_dir t ↔ ∃ parts, s = joinParts parts ∧ SurvivingFile t parts) ∧
    (∀ s ∈ get_files_in_dir t, ∃ parts, s = joinParts parts ∧ parts ≠ [] ∧
      (∀ c ∈ parts, startsWithDot c = false) ∧
      (∀ l, parts.getLast? = some l → l ≠ ".DS_Store" ∧ l ≠ "Thumbs.db")) ∧
    (walkFiles t = [] → get_files_in_dir t = []) := by
  refine ⟨?_, fun s => mem_get_files_in_dir t hwf s, ?_, ?_⟩
  · exact List.sorted_insertionSort strOrd _
  · intro s hs
    obtain ⟨parts, rfl, hne, -, -, -, hdl, hlast⟩ :
        ∃ parts, s = joinParts parts ∧ parts ≠ [] ∧ (∀ c ∈ parts, goodNameB c = true) ∧
          (∃ c, t.find? parts = some (.file c)) ∧ parts ≠ [] ∧
          (∀ d ∈ parts.dropLast, keepDirB d = true) ∧
          (∀ l, parts.getLast? = some l → keepFileB l = true) := by
      obtain ⟨parts, h1, h2, h3, h4⟩ := get_files_in_dir_rep t hwf s hs
      exact ⟨parts, h1, h2, h3, h4.1, h4.2.1, h4.2.2.1, h4.2.2.2⟩
    refine ⟨parts, rfl, hne, ?_, ?_⟩
    · intro c hc
      have hsplit := List.dropLast_append_getLast (l := parts) hne
      rw [← hsplit] at hc
      rcases List.mem_append.mp hc with hc | hc
      · have := hdl c hc
        simpa [keepDirB] using this
      · simp only [List.mem_singleton] at hc
        subst hc
        have hl := hlast _ (List.getLast?_eq_getLast parts hne)
        simp only [keepFileB, Bool.not_eq_true', Bool.or_eq_false_iff] at hl
        exact hl.1.1
    · intro l hl
      have := hlast l hl
      simp only [keepFileB, Bool.not_eq_true', Bool.or_eq_false_iff] at this
      constructor
      · intro h; subst h; simpa using this.1.2
      · intro h; subst h; simpa using this.2
  · intro h
    unfold get_files_in_dir
    rw [h]
    rfl

/-- Witness for C3 on the demonstration tree, together with the concrete
value of the scanner's output there. -/
theorem C3_witness :
    wfFS scannerDemo = true ∧
    get_files_in_dir scannerDemo = ["a.txt", "sub/b.txt"] ∧
    (get_files_in_dir scannerDemo).Sorted strOrd := by
  have hwf : wfFS scannerDemo = true := by
    simp [scannerDemo, wfFS, wfChildren, noDupKeys, goodNameB]
  have hwalk : walkFiles scannerDemo = [["sub", "b.txt"], ["a.txt"]] := by
    simp [scannerDemo, walkFiles, walkChildren, keepDirB, keepFileB, startsWithDot]
  have hval : get_files_in_dir scannerDemo = ["a.txt", "sub/b.txt"] := by
    unfold get_files_in_dir
    rw [hwalk]
    decide
  exact ⟨hwf, hval, hval ▸ (C3_path_scanner scannerDemo hwf).1⟩

/-- Lookup in a cache built by folding a filtered insert over a duplicate-free
listing: the unique binding of the key decides the result. -/
theorem cacheFold_lookup (f : String → FSEntry → Bool) (g : String → FSEntry → CacheEntry) :
    ∀ (l : Root) (acc : Cache) (n : String), noDupKeys l = true →
      assocLookup (l.foldl (fun cache item =>
          if f item.1 item.2 then assocInsert cache item.1 (g item.1 item.2) else cache) acc) n =
        match assocLookup l n with
        | some e => if f n e then some (g n e) else assocLookup acc n
        | none => assocLookup acc n := by
  intro l
  induction l with
  | nil => intro acc n _; simp [assocLookup]
  | cons p rest ih =>
    obtain ⟨m, e⟩ := p
    intro acc n hnodup
    obtain ⟨hnone, hnodup'⟩ := noDupKeys_cons hnodup
    simp only [List.foldl_cons]
    by_cases hmn : m = n
    · subst hmn
      rw [ih _ m hnodup', hnone]
      by_cases hf : f m e
      · simp [assocLookup, hf, assocLookup_insert_self]
      · simp [assocLookup, hf]
    · rw [ih _ n hnodup']
      have hacc' : assocLookup
          (if f m e then assocInsert acc m (g m e) else acc) n = assocLookup acc n := by
        by_cases hf : f m e
        · simp [hf, assocLookup_insert_ne _ _ _ _ fun hh => hmn hh.symm]
        · simp [hf]
      cases hr : assocLookup rest n with
      | none => simp [assocLookup, hmn, hr, hacc']
      | some e' => simp [assocLookup, hmn, hr, hacc']

/-- Lookup in the freshly rebuilt project table. -/
theorem build_initial_lookup (root : Root) (hnodup : noDupKeys root = true) (n : String) :
    assocLookup (build_initial_project_cache root) n =
      (assocLookup root n).bind (fun e =>
        if isDirB e && !(startsWithDot n) && !(excluded_dirs.contains (strLower n))
        then some ⟨[n], get_files_in_dir e⟩ else none) := by
  have h := cacheFold_lookup
    (fun n e => isDirB e && !(startsWithDot n) && !(excluded_dirs.contains (strLower n)))
    (fun n e => ⟨[n], get_files_in_dir e⟩) root [] n hnodup
  rw [show build_initial_project_cache root = root.foldl (fun cache item =>
      if isDirB item.2 && !(startsWithDot item.1) && !(excluded_dirs.contains (strLower item.1))
      then assocInsert cache item.1 ⟨[item.1], get_files_in_dir item.2⟩ else cache) []
    from rfl]
  rw [h]
  cases assocLookup root n with
  | none => simp [assocLookup]
  | some e => simp [assocLookup]

/-- C4 counterexample: the immediate subdirectory named Hardware is a
directory, is not hidden, and its name is not in the exclusion set, yet the
rebuilt project table has no entry for it: the code excludes by lowercased
name. -/
theorem C4_counterexample :
    isDirB (FSEntry.dir []) = true ∧
    startsWithDot "Hardware" = false ∧
    "Hardware" ∉ excluded_dirs ∧
    assocLookup (build_initial_project_cache [("Hardware", FSEntry.dir [])]) "Hardware" =
      none := by
  refine ⟨rfl, by decide, by decide, ?_⟩
  simp [build_initial_project_cache, excluded_dirs, assocInsert, assocLookup,
    isDirB, startsWithDot, strLower]

/-- C4 (amended): a full rebuild clears the table and creates exactly one
entry per immediate subdirectory of the root that is a directory, is not
hidden and whose lowercased name is not in the exclusion set; lookup of each
such name yields the Path Scanner's direct result on that subdirectory, and
no other names are present. -/
theorem C4_full_rebuild (root : Root) (hnodup : noDupKeys root = true) :
    (∀ n e, assocLookup root n = some e → isDirB e = true → startsWithDot n = false →
      excluded_dirs.contains (strLower n) = false →
      assocLookup (build_initial_project_cache root) n = some ⟨[n], get_files_in_dir e⟩) ∧
    (∀ n entry, assocLookup (build_initial_project_cache root) n = some entry →
      ∃ e, assocLookup root n = some e ∧ isDirB e = true ∧ startsWithDot n = false ∧
        excluded_dirs.contains (strLower n) = false ∧
        entry = ⟨[n], get_files_in_dir e⟩) := by
  constructor
  · intro n e he hdir hhid hexc
    rw [build_initial_lookup root hnodup n, he]
    have hexc' : strLower n ∉ excluded_dirs := by simpa using hexc
    simp [hdir, hhid, hexc']
  · intro n entry hentry
    rw [build_initial_lookup root hnodup n] at hentry
    cases he : assocLookup root n with
    | none => rw [he] at hentry; exact Option.noConfusion hentry
    | some e =>
      rw [he] at hentry
      simp only [Option.some_bind] at hentry
      by_cases hq : (isDirB e && !(startsWithDot n) && !(excluded_dirs.contains (strLower n))) = true
      · have hq' := hq
        simp only [Bool.and_eq_true, Bool.not_eq_true'] at hq'
        rw [if_pos hq] at hentry
        injection hentry with hentry
        exact ⟨e, rfl, hq'.1.1, hq'.1.2, hq'.2, hentry.symm⟩
      · rw [if_neg hq] at hentry
        exact Option.noConfusion hentry

/-- Witness for the amended C4: a root holding a project, a hidden directory,
the excluded names in two casings, and a plain file. -/
theorem C4_witness :
    noDupKeys ([("Blink", FSEntry.dir []), (".hidden", FSEntry.dir []),
      ("Libraries", FSEntry.dir []), ("tools", FSEntry.dir []),
      ("readme.txt", FSEntry.file "hi")] : Root) = true ∧
    assocLookup (build_initial_project_cache
      [("Blink", FSEntry.dir []), (".hidden", FSEntry.dir []),
       ("Libraries", FSEntry.dir []), ("tools", FSEntry.dir []),
       ("readme.txt", FSEntry.file "hi")]) "Blink" =
      some ⟨["Blink"], get_files_in_dir (FSEntry.dir [])⟩ ∧
    ∀ n, n ∈ [".hidden", "Libraries", "tools", "readme.txt"] →
      assocLookup (build_initial_project_cache
        [("Blink", FSEntry.dir []), (".hidden", FSEntry.dir []),
         ("Libraries", FSEntry.dir []), ("tools", FSEntry.dir []),
         ("readme.txt", FSEntry.file "hi")]) n = none := by
  have hnodup : noDupKeys ([("Blink", FSEntry.dir []), (".hidden", FSEntry.dir []),
      ("Libraries", FSEntry.dir []), ("tools", FSEntry.dir []),
      ("readme.txt", FSEntry.file "hi")] : Root) = true := by decide
  have h := C4_full_rebuild
    [("Blink", FSEntry.dir []), (".hidden", FSEntry.dir []),
     ("Libraries", FSEntry.dir []), ("tools", FSEntry.dir []),
     ("readme.txt", FSEntry.file "hi")] hnodup
  refine ⟨hnodup, h.1 "Blink" (FSEntry.dir []) rfl rfl rfl rfl, ?_⟩
  intro n hn
  fin_cases hn <;> rfl

/-- C2 counterexample: the library directory Servo exists on disk but is
absent from the library cache; both library endpoints fail with not-found
immediately instead of performing the disk-check-then-refresh the claim
requires for every name resolution. -/
theorem C2_counterexample :
    (findAt ([("libraries",
        FSEntry.dir [("Servo", FSEntry.dir [("Servo.h", FSEntry.file "")])])] : Root)
      ["libraries", "Servo"]).isSome = true ∧
    list_files_in_library
      ⟨[("libraries", FSEntry.dir [("Servo", FSEntry.dir [("Servo.h", FSEntry.file "")])])],
        [], []⟩ "Servo" = .err 404 "Library not found" ∧
    read_library_file
      ⟨[("libraries", FSEntry.dir [("Servo", FSEntry.dir [("Servo.h", FSEntry.file "")])])],
        [], []⟩ "Servo" "Servo.h" = .err 404 "Library not found in cache" := by
  refine ⟨?_, rfl, rfl⟩
  simp [findAt, FSEntry.find?, assocLookup]

/-- C2 (amended): the miss-then-disk-check-then-refresh rule holds for
project-name resolutions; a library name absent from the library table makes
list-files-in-library and read-library-file fail with not-found immediately,
with no disk check and no refresh, even when the directory exists on disk. -/
theorem C2_name_resolution (s : ServerState) (name : String) :
    (assocLookup s.libraryCache name = none →
      list_files_in_library s name = .err 404 "Library not found" ∧
      ∀ fp, read_library_file s name fp = .err 404 "Library not found in cache") ∧
    (assocLookup s.projectCache name = none → findAt s.root [name] = none →
      (list_files_in_project s name).1 = .err 404 "Project folder not found") ∧
    (assocLookup s.projectCache name = none → ∀ e, findAt s.root [name] = some e →
      list_files_in_project s name =
        (.ok (get_files_in_dir e), refresh_project_cache s name)) := by
  refine ⟨?_, ?_, ?_⟩
  · intro h
    exact ⟨by simp [list_files_in_library, h], fun fp => by simp [read_library_file, h]⟩
  · intro hc hf
    simp [list_files_in_project, hc, hf]
  · intro hc e hf
    have hl := refresh_lookup_self s name
    rw [hf] at hl
    simp [list_files_in_project, hc, hf, hl]

/-- Witness for the amended C2: a project directory present on disk but
absent from the cache is served after a refresh, while the same name as a
library is rejected immediately. -/
theorem C2_witness :
    assocLookup ([] : Cache) "P" = none ∧
    findAt ([("P", FSEntry.dir [])] : Root) ["P"] = some (FSEntry.dir []) ∧
    list_files_in_library ⟨[("P", FSEntry.dir [])], [], []⟩ "P" =
      .err 404 "Library not found" ∧
    list_files_in_project ⟨[("P", FSEntry.dir [])], [], []⟩ "P" =
      (.ok (get_files_in_dir (FSEntry.dir [])),
        refresh_project_cache ⟨[("P", FSEntry.dir [])], [], []⟩ "P") := by
  have h := C2_name_resolution ⟨[("P", FSEntry.dir [])], [], []⟩ "P"
  have hc : assocLookup ([] : Cache) "P" = none := rfl
  have hf : findAt ([("P", FSEntry.dir [])] : Root) ["P"] = some (FSEntry.dir []) := rfl
  exact ⟨hc, hf, (h.1 hc).1, h.2.2 hc (FSEntry.dir []) hf⟩

/-! ### Insert-and-merge lemmas for the copy endpoint -/

theorem assocInsert_lookup_self_eq {α : Type} (l : List (String × α)) (n : String) (x : α)
    (h : assocLookup l n = some x) : assocInsert l n x = l := by
  induction l with
  | nil => simp [assocLookup] at h
  | cons p rest ih =>
    obtain ⟨m, y⟩ := p
    by_cases hm : m = n
    · subst hm
      have hyx : y = x := by simpa [assocLookup] using h
      subst hyx
      simp [assocInsert]
    · simp only [assocLookup, if_neg hm] at h
      simp [assocInsert, hm, ih h]

theorem mkdirsAt_existing (root : Root) (n : String) (d : List (String × FSEntry))
    (h : assocLookup root n = some (.dir d)) :
    mkdirsAt (.dir root) [n] = some (.dir root) := by
  simp only [mkdirsAt, h, Option.getD_some]
  rw [assocInsert_lookup_self_eq root n (.dir d) h]

/-- C9: copying a library example into a project whose directory already
exists does not fail with a conflict: the destination directory is entered
with exist-ok semantics, the example's surviving files are merged into the
existing tree (a file at the same relative path is overwritten), the
project's cache entry is refreshed from the merged tree, and the endpoint
returns success — while create_project on the same existing directory
rejects with the 400 conflict. -/
theorem C9_copy_into_existing (s : ServerState) (lib : CacheEntry)
    (libName exFolder npn : String)
    (hlib : assocLookup s.libraryCache libName = some lib)
    (srcCs : List (String × FSEntry))
    (hsrc : findAt s.root (lib.path ++ "examples" :: pathParts exFolder) = some (.dir srcCs))
    (destCs : List (String × FSEntry))
    (hdest : assocLookup s.root npn = some (.dir destCs))
    (destCs' : List (String × FSEntry))
    (hmerge : mergeChildren destCs (filterChildren srcCs) = some destCs') :
    copy_library_example s libName exFolder npn =
      (.ok ("Copied example " ++ exFolder),
        { root := assocInsert s.root npn (.dir destCs'),
          projectCache := assocInsert s.projectCache npn
            ⟨[npn], get_files_in_dir (.dir destCs')⟩,
          libraryCache := s.libraryCache }) ∧
    (∀ content fp, (create_project s npn content fp).1 = .err 400 "Project already exists") := by
  constructor
  · have hmk := mkdirsAt_existing s.root npn destCs hdest
    have hfind2 : findAt (assocInsert s.root npn (.dir destCs')) [npn] =
        some (.dir destCs') := by
      simp [findAt, FSEntry.find?, assocLookup_insert_self]
    simp [copy_library_example, hlib, hsrc, hmk, hdest, hmerge,
      refresh_project_cache, hfind2]
  · intro content fp
    have hfind : findAt s.root [npn] = some (.dir destCs) := by
      simp [findAt, FSEntry.find?, hdest]
    simp [create_project, hfind]

/-- Demonstration state for the copy claim: a Servo library with a Sweep
example, and an existing Demo project already holding a file. -/
def copyDemoState : ServerState :=
  { root := [("libraries", .dir [("Servo", .dir [("examples",
        .dir [("Sweep", .dir [("Sweep.ino", .file "sweep")])])])]),
      ("Demo", .dir [("old.txt", .file "o")])],
    projectCache := [],
    libraryCache := [("Servo", ⟨["libraries", "Servo"], []⟩)] }

/-- Witness for C9 on the demonstration state. -/
theorem C9_witness :
    assocLookup copyDemoState.libraryCache "Servo" =
      some ⟨["libraries", "Servo"], []⟩ ∧
    findAt copyDemoState.root (["libraries", "Servo"] ++ "examples" :: pathParts "Sweep") =
      some (.dir [("Sweep.ino", .file "sweep")]) ∧
    assocLookup copyDemoState.root "Demo" = some (.dir [("old.txt", .file "o")]) ∧
    mergeChildren [("old.txt", FSEntry.file "o")]
        (filterChildren [("Sweep.ino", FSEntry.file "sweep")]) =
      some [("old.txt", FSEntry.file "o"), ("Sweep.ino", FSEntry.file "sweep")] ∧
    (∀ content fp, (create_project copyDemoState "Demo" content fp).1 =
      .err 400 "Project already exists") := by
  have h1 : assocLookup copyDemoState.libraryCache "Servo" =
      some ⟨["libraries", "Servo"], []⟩ := rfl
  have h2 : findAt copyDemoState.root
      (["libraries", "Servo"] ++ "examples" :: pathParts "Sweep") =
      some (.dir [("Sweep.ino", .file "sweep")]) := rfl
  have h3 : assocLookup copyDemoState.root "Demo" =
      some (.dir [("old.txt", .file "o")]) := rfl
  have h4 : mergeChildren [("old.txt", FSEntry.file "o")]
      (filterChildren [("Sweep.ino", FSEntry.file "sweep")]) =
      some [("old.txt", FSEntry.file "o"), ("Sweep.ino", FSEntry.file "sweep")] := by
    simp [filterChildren, mergeChildren, keepFileB, startsWithDot, assocLookup, assocInsert]
  exact ⟨h1, h2, h3, h4,
    (C9_copy_into_existing copyDemoState ⟨["libraries", "Servo"], []⟩ "Servo" "Sweep" "Demo"
      h1 [("Sweep.ino", .file "sweep")] h2 [("old.txt", .file "o")] h3
      [("old.txt", FSEntry.file "o"), ("Sweep.ino", FSEntry.file "sweep")] h4).2⟩

/-! ### Correctness of the file-write helper -/

theorem splitSlash_pieces (l : List Char) : ∀ p ∈ splitSlash l, '/' ∉ p := by
  induction l with
  | nil =>
    intro p hp
    simp only [splitSlash, List.mem_singleton] at hp
    subst hp
    simp
  | cons c rest ih =>
    intro p hp
    by_cases hc : c = '/'
    · simp only [splitSlash, if_pos hc] at hp
      rcases List.mem_cons.mp hp with rfl | hp
      · simp
      · exact ih p hp
    · simp only [splitSlash, if_neg hc] at hp
      cases hs : splitSlash rest with
      | nil => exact absurd hs (splitSlash_never_nil rest)
      | cons q qs =>
        rw [hs] at hp
        rcases List.mem_cons.mp hp with rfl | hp
        · intro hmem
          rcases List.mem_cons.mp hmem with h | h
          · exact hc h.symm
          · exact ih q (hs ▸ List.mem_cons_self q qs) h
        · exact ih p (hs ▸ List.mem_cons_of_mem q hp)

/-- Every component a request path parses to is a valid entry name unless it
is the parent-navigation component. -/
theorem pathParts_goodName (s : String) :
    ∀ c ∈ pathParts s, c ≠ ".." → goodNameB c = true := by
  intro c hc hne
  unfold pathParts at hc
  obtain ⟨hmem, hcond⟩ := List.mem_filter.mp hc
  obtain ⟨l, hl, rfl⟩ := List.mem_map.mp hmem
  simp only [decide_eq_true_eq] at hcond
  have hns : '/' ∉ l := splitSlash_pieces s.data l hl
  simp only [goodNameB, Bool.and_eq_true, decide_eq_true_eq]
  exact ⟨⟨⟨hcond.1, hns⟩, hcond.2⟩, hne⟩

theorem normalizeFrom_mem :
    ∀ parts acc x, x ∈ normalizeFrom acc parts → x ∈ acc ∨ (x ∈ parts ∧ x ≠ "..") := by
  intro parts
  induction parts with
  | nil =>
    intro acc x hx
    left
    simpa [normalizeFrom] using hx
  | cons c rest ih =>
    intro acc x hx
    by_cases hc : c = ".."
    · rw [normalizeFrom, if_pos hc] at hx
      rcases ih _ x hx with h | h
      · left; exact (List.dropLast_sublist acc).subset h
      · right; exact ⟨List.mem_cons_of_mem _ h.1, h.2⟩
    · rw [normalizeFrom, if_neg hc] at hx
      rcases ih _ x hx with h | h
      · rcases List.mem_append.mp h with h | h
        · left; exact h
        · right
          simp only [List.mem_singleton] at h
          exact ⟨h ▸ List.mem_cons_self _ _, h ▸ hc⟩
      · right; exact ⟨List.mem_cons_of_mem _ h.1, h.2⟩

theorem setFileAt_find :
    ∀ (p : List String) (e e' : FSEntry) (c : String),
      setFileAt e p c = some e' → e'.find? p = some (.file c) := by
  intro p
  induction p with
  | nil => intro e e' c h; simp [setFileAt] at h
  | cons n rest ih =>
    intro e e' c h
    cases e with
    | file cc => simp [setFileAt] at h
    | dir cs =>
      cases rest with
      | nil =>
        simp only [setFileAt] at h
        cases hl : assocLookup cs n with
        | some x =>
          cases x with
          | dir d => rw [hl] at h; exact Option.noConfusion h
          | file f =>
            rw [hl] at h
            injection h with h
            subst h
            simp [FSEntry.find?, assocLookup_insert_self]
        | none =>
          rw [hl] at h
          injection h with h
          subst h
          simp [FSEntry.find?, assocLookup_insert_self]
      | cons m rest' =>
        simp only [setFileAt] at h
        cases hs : setFileAt ((assocLookup cs n).getD (.dir [])) (m :: rest') c with
        | none => rw [hs] at h; exact Option.noConfusion h
        | some e0 =>
          rw [hs] at h
          injection h with h
          subst h
          have hrec := ih _ _ _ hs
          simp [FSEntry.find?, assocLookup_insert_self, hrec]

theorem assocInsert_any_key {α : Type} (l : List (String × α)) (n m : String) (x : α) :
    ((assocInsert l n x).any (fun p => p.1 == m)) =
      (l.any (fun p => p.1 == m) || n == m) := by
  induction l with
  | nil => simp [assocInsert, Bool.or_comm]
  | cons p rest ih =>
    obtain ⟨k, y⟩ := p
    by_cases hk : k = n
    · subst hk
      cases hnm : (k == m) <;> simp [assocInsert, hnm]
    · simp only [assocInsert, if_neg hk, List.any_cons, ih]
      cases hkm : (k == m) <;> simp [hkm, Bool.or_assoc]

theorem noDupKeys_insert {α : Type} (l : List (String × α)) (n : String) (x : α)
    (h : noDupKeys l = true) : noDupKeys (assocInsert l n x) = true := by
  induction l with
  | nil => simp [assocInsert, noDupKeys]
  | cons p rest ih =>
    obtain ⟨m, y⟩ := p
    simp only [noDupKeys, Bool.and_eq_true, Bool.not_eq_true'] at h
    by_cases hm : m = n
    · subst hm
      simp only [assocInsert, if_pos rfl, noDupKeys, Bool.and_eq_true, Bool.not_eq_true']
      exact ⟨h.1, h.2⟩
    · simp only [assocInsert, if_neg hm, noDupKeys, Bool.and_eq_true, Bool.not_eq_true']
      refine ⟨?_, ih h.2⟩
      rw [assocInsert_any_key]
      have hnm : (n == m) = false := by
        simp only [beq_eq_false_iff_ne, ne_eq]
        exact fun hh => hm hh.symm
      simp [h.1, hnm]

theorem wfChildren_insert (l : List (String × FSEntry)) (n : String) (x : FSEntry)
    (hl : wfChildren l = true) (hn : goodNameB n = true) (hx : wfFS x = true) :
    wfChildren (assocInsert l n x) = true := by
  induction l with
  | nil => simp [assocInsert, wfChildren, hn, hx]
  | cons p rest ih =>
    obtain ⟨m, y⟩ := p
    obtain ⟨hm, hy, hrest⟩ := (wfChildren_cons_iff _ _ _).mp hl
    by_cases hmn : m = n
    · subst hmn
      simp [assocInsert, wfChildren, hn, hx, hrest]
    · simp [assocInsert, hmn, wfChildren, hm, hy, ih hrest]

theorem setFileAt_wf :
    ∀ (p : List String) (e e' : FSEntry) (c : String),
      wfFS e = true → (∀ x ∈ p, goodNameB x = true) →
      setFileAt e p c = some e' → wfFS e' = true := by
  intro p
  induction p with
  | nil => intro e e' c _ _ h; simp [setFileAt] at h
  | cons n rest ih =>
    intro e e' c hwf hgood h
    cases e with
    | file cc => simp [setFileAt] at h
    | dir cs =>
      obtain ⟨hnodup, hch⟩ := (wfFS_dir_iff cs).mp hwf
      have hgn : goodNameB n = true := hgood n (List.mem_cons_self _ _)
      cases rest with
      | nil =>
        simp only [setFileAt] at h
        cases hl : assocLookup cs n with
        | some x =>
          cases x with
          | dir d => rw [hl] at h; exact Option.noConfusion h
          | file f =>
            rw [hl] at h
            injection h with h
            subst h
            exact (wfFS_dir_iff _).mpr ⟨noDupKeys_insert cs n _ hnodup,
              wfChildren_insert cs n _ hch hgn (by simp [wfFS])⟩
        | none =>
          rw [hl] at h
          injection h with h
          subst h
          exact (wfFS_dir_iff _).mpr ⟨noDupKeys_insert cs n _ hnodup,
            wfChildren_insert cs n _ hch hgn (by simp [wfFS])⟩
      | cons m rest' =>
        simp only [setFileAt] at h
        cases hs : setFileAt ((assocLookup cs n).getD (.dir [])) (m :: rest') c with
        | none => rw [hs] at h; exact Option.noConfusion h
        | some e0 =>
          rw [hs] at h
          injection h with h
          subst h
          have hwfchild : wfFS ((assocLookup cs n).getD (.dir [])) = true := by
            cases hl : assocLookup cs n with
            | none => simp [wfFS, wfChildren, noDupKeys]
            | some y =>
              simpa using wfChildren_lookup cs n y hch hl
          have hwf0 : wfFS e0 = true :=
            ih _ _ _ hwfchild (fun x hx => hgood x (List.mem_cons_of_mem _ hx)) hs
          exact (wfFS_dir_iff _).mpr ⟨noDupKeys_insert cs n _ hnodup,
            wfChildren_insert cs n _ hch hgn hwf0⟩

/-- C10: the file-write helper applies no validation to the relative path:
whenever it succeeds it has created the missing intermediate directories and
written (overwritten) the target at the resolved location, including a path
whose parent components land outside the project's base directory; the tree
stays well formed; and when the relative path contains a parent component,
the listing a subsequent single-entry refresh would store for the project
cannot contain that relative path. -/
theorem C10_create_or_update_file (root : Root) (hwf : wfRoot root = true)
    (pn : String) (hgood : goodNameB pn = true) (fp content : String)
    (root' : Root)
    (hrun : create_or_update_file root [pn] fp content = some root') :
    findAt root' (normalizeFrom [pn] (pathParts fp)) = some (.file content) ∧
    wfRoot root' = true ∧
    (".." ∈ pathParts fp → ∀ e, findAt root' [pn] = some e →
      fp ∉ get_files_in_dir e) := by
  have hset : setFileAt (.dir root) (normalizeFrom [pn] (pathParts fp)) content =
      some (.dir root') := by
    unfold create_or_update_file at hrun
    cases hs : setFileAt (.dir root) (normalizeFrom [pn] (pathParts fp)) content with
    | none => rw [hs] at hrun; exact Option.noConfusion hrun
    | some x =>
      cases x with
      | file cc => rw [hs] at hrun; exact Option.noConfusion hrun
      | dir cs =>
        rw [hs] at hrun
        injection hrun with hrun
        subst hrun
        rfl
  have hcomp : ∀ x ∈ normalizeFrom [pn] (pathParts fp), goodNameB x = true := by
    intro x hx
    rcases normalizeFrom_mem (pathParts fp) [pn] x hx with h | h
    · simp only [List.mem_singleton] at h
      exact h ▸ hgood
    · exact pathParts_goodName fp x h.1 h.2
  have hwf' : wfRoot root' = true := setFileAt_wf _ _ _ _ hwf hcomp hset
  refine ⟨setFileAt_find _ _ _ _ hset, hwf', ?_⟩
  intro hdd e he hmem
  have hwfe : wfFS e = true := wfFS_find? [pn] (.dir root') e hwf' he
  exact get_files_in_dir_no_dotdot e hwfe fp hmem hdd

/-- Witness for C10: writing a parent-escaping path from inside project P
lands the file next to the projects, and P's refreshed listing cannot show
it. -/
theorem C10_witness :
    wfRoot [("P", FSEntry.dir []), ("Other", FSEntry.dir [])] = true ∧
    goodNameB "P" = true ∧
    ".." ∈ pathParts "../escape.txt" ∧
    create_or_update_file [("P", FSEntry.dir []), ("Other", FSEntry.dir [])] ["P"]
      "../escape.txt" "boo" =
      some [("P", FSEntry.dir []), ("Other", FSEntry.dir []),
        ("escape.txt", FSEntry.file "boo")] ∧
    findAt [("P", FSEntry.dir []), ("Other", FSEntry.dir []),
        ("escape.txt", FSEntry.file "boo")]
      (normalizeFrom ["P"] (pathParts "../escape.txt")) = some (.file "boo") ∧
    (∀ e, findAt [("P", FSEntry.dir []), ("Other", FSEntry.dir []),
        ("escape.txt", FSEntry.file "boo")] ["P"] = some e →
      "../escape.txt" ∉ get_files_in_dir e) := by
  have h1 : wfRoot [("P", FSEntry.dir []), ("Other", FSEntry.dir [])] = true := by
    simp [wfRoot, wfFS, wfChildren, noDupKeys, goodNameB]
  have h2 : goodNameB "P" = true := by decide
  have h3 : ".." ∈ pathParts "../escape.txt" := by decide
  have h4 : create_or_update_file [("P", FSEntry.dir []), ("Other", FSEntry.dir [])] ["P"]
      "../escape.txt" "boo" =
      some [("P", FSEntry.dir []), ("Other", FSEntry.dir []),
        ("escape.txt", FSEntry.file "boo")] := by
    simp [create_or_update_file, setFileAt, normalizeFrom, pathParts, splitSlash,
      assocLookup, assocInsert]
  have h := C10_create_or_update_file [("P", FSEntry.dir []), ("Other", FSEntry.dir [])]
    h1 "P" h2 "../escape.txt" "boo"
    [("P", FSEntry.dir []), ("Other", FSEntry.dir []), ("escape.txt", FSEntry.file "boo")] h4
  exact ⟨h1, h2, h3, h4, h.1, fun e he => h.2.2 h3 e he⟩

/-! ### Reasoning about the read endpoints -/

/-- A successful file read echoes the requested relative path back. -/
theorem readContent_ok (root : Root) (base : List String) (fp : String) (r : FileResponse)
    (h : readContent root base fp = .ok r) : r.file_path = fp := by
  unfold readContent at h
  cases hres : resolveAbs root base (pathParts fp) with
  | none => rw [hres] at h; exact Outcome.noConfusion h
  | some p =>
    rw [hres] at h
    cases hf : findAt root p with
    | none =>
      simp only [hf] at h
      exact Outcome.noConfusion h
    | some x =>
      cases x with
      | file c =>
        simp only [hf, Outcome.ok.injEq] at h
        rw [← h]
      | dir d =>
        simp only [hf] at h
        exact Outcome.noConfusion h

/-- Evaluating a read whose path resolves to a file. -/
theorem readContent_eval (root : Root) (base : List String) (fp : String)
    (q : List String) (c : String)
    (hres : resolveAbs root base (pathParts fp) = some q)
    (hf : findAt root q = some (.file c)) :
    readContent root base fp = .ok ⟨fp, c⟩ := by
  unfold readContent
  simp only [hres]
  rw [hf]

/-- A string of a project listing corresponds to a real file below the
project directory, and the POSIX existence check on it succeeds. -/
theorem listing_to_disk (root : Root) (hwf : wfRoot root = true) (pn fp : String)
    (e : FSEntry) (he : findAt root [pn] = some e)
    (hmem : fp ∈ get_files_in_dir e) :
    ∃ c, findAt root ([pn] ++ pathParts fp) = some (.file c) ∧
      resolveAbs root [pn] (pathParts fp) = some ([pn] ++ pathParts fp) := by
  have hwfe : wfFS e = true := wfFS_find? [pn] (.dir root) e hwf he
  obtain ⟨parts, rfl, hne, hgoodp, hS⟩ := get_files_in_dir_rep e hwfe fp hmem
  obtain ⟨⟨c, hfind⟩, -, -, -⟩ := hS
  have hparts : pathParts (joinParts parts) = parts := pathParts_joinParts parts hne hgoodp
  rw [hparts]
  have happ : findAt root ([pn] ++ parts) = some (.file c) := by
    rw [findAt, find?_append]
    rw [show FSEntry.find? (.dir root) [pn] = findAt root [pn] from rfl, he]
    exact hfind
  refine ⟨c, happ, ?_⟩
  apply resolveAbs_of_found
  · intro x hx
    have := hgoodp x hx
    simp only [goodNameB, Bool.and_eq_true, decide_eq_true_eq] at this
    exact this.2
  · have happ' : findAt root (pn :: parts) = some (.file c) := happ
    simp [happ']

/-- Shape of the read endpoint after a listing miss for a cached project. -/
theorem read_file_core_eq_of_entry (s1 : ServerState) (pn fp : String) (entry : CacheEntry)
    (hentry : assocLookup s1.projectCache pn = some entry)
    (hmiss : fp ∉ entry.files) :
    read_file_core s1 pn fp =
      if existsAt s1.root entry.path (pathParts fp) = false then
        (.err 404 "File not found in project", s1)
      else
        match assocLookup (refresh_project_cache s1 pn).projectCache pn with
        | none => (.crash "KeyError", refresh_project_cache s1 pn)
        | some entry2 =>
          if fp ∈ entry2.files then
            (readContent (refresh_project_cache s1 pn).root entry2.path fp,
              refresh_project_cache s1 pn)
          else (.err 404 "File not found in project after refresh",
            refresh_project_cache s1 pn) := by
  unfold read_file_core
  simp only [hentry]
  rw [if_neg hmiss]

/-- A successful read response names a path of the entry's listing in the
response-time cache. -/
theorem read_file_core_ok_mem (s1 : ServerState) (pn fp : String) (r : FileResponse)
    (s' : ServerState) (h : read_file_core s1 pn fp = (.ok r, s')) :
    ∃ entry, assocLookup s'.projectCache pn = some entry ∧
      r.file_path = fp ∧ fp ∈ entry.files := by
  unfold read_file_core at h
  cases h0 : assocLookup s1.projectCache pn with
  | none => simp only [h0] at h; simp at h
  | some entry =>
    simp only [h0] at h
    by_cases hm : fp ∈ entry.files
    · rw [if_pos hm] at h
      rw [Prod.mk.injEq] at h
      obtain ⟨hr, hs⟩ := h
      subst hs
      exact ⟨entry, h0, readContent_ok _ _ _ _ hr, hm⟩
    · rw [if_neg hm] at h
      by_cases hex : existsAt s1.root entry.path (pathParts fp) = false
      · rw [if_pos hex] at h; simp at h
      · rw [if_neg hex] at h
        cases h2 : assocLookup (refresh_project_cache s1 pn).projectCache pn with
        | none => simp only [h2] at h; simp at h
        | some entry2 =>
          simp only [h2] at h
          by_cases hm2 : fp ∈ entry2.files
          · rw [if_pos hm2] at h
            rw [Prod.mk.injEq] at h
            obtain ⟨hr, hs⟩ := h
            subst hs
            exact ⟨entry2, h2, readContent_ok _ _ _ _ hr, hm2⟩
          · rw [if_neg hm2] at h; simp at h

/-- Under well-formedness, a request path containing a parent component makes
the read endpoint end in a 404. -/
theorem read_file_core_dotdot (s1 : ServerState) (pn fp : String)
    (hwf : wfRoot s1.root = true)
    (hEOK : ∀ entry, assocLookup s1.projectCache pn = some entry →
      entry.path = [pn] ∧ ∀ str ∈ entry.files, ".." ∉ pathParts str)
    (hdd : ".." ∈ pathParts fp) :
    ∃ d s', read_file_core s1 pn fp = (.err 404 d, s') := by
  cases h0 : assocLookup s1.projectCache pn with
  | none =>
    refine ⟨"Project folder not found", s1, ?_⟩
    unfold read_file_core
    rw [h0]
  | some entry =>
    obtain ⟨hpath, hfiles⟩ := hEOK entry h0
    have hmiss : fp ∉ entry.files := fun hmem => hfiles fp hmem hdd
    rw [read_file_core_eq_of_entry s1 pn fp entry h0 hmiss]
    by_cases hex : existsAt s1.root entry.path (pathParts fp) = false
    · rw [if_pos hex]
      exact ⟨_, _, rfl⟩
    · rw [if_neg hex]
      have hex' : existsAt s1.root entry.path (pathParts fp) = true := by
        cases hB : existsAt s1.root entry.path (pathParts fp)
        · exact absurd hB hex
        · rfl
      rw [hpath] at hex'
      have hbase : (findAt s1.root [pn]).isSome = true :=
        findAt_base_of_resolve s1.root (pathParts fp) [pn] hex'
      obtain ⟨e, he⟩ := Option.isSome_iff_exists.mp hbase
      have hl := refresh_lookup_self s1 pn
      rw [he] at hl
      simp only [hl]
      have hwfe : wfFS e = true := wfFS_find? [pn] (.dir s1.root) e hwf he
      have hmiss2 : fp ∉ get_files_in_dir e :=
        fun hmem => get_files_in_dir_no_dotdot e hwfe fp hmem hdd
      rw [if_neg hmiss2]
      exact ⟨_, _, rfl⟩

/-- A successful library file read names a path of the library's cached
listing. -/
theorem read_library_file_ok_mem (s : ServerState) (libn fp : String) (r : FileResponse)
    (h : read_library_file s libn fp = .ok r) :
    ∃ entry, assocLookup s.libraryCache libn = some entry ∧
      r.file_path = fp ∧ fp ∈ entry.files := by
  unfold read_library_file at h
  cases h0 : assocLookup s.libraryCache libn with
  | none =>
    simp only [h0] at h
    exact Outcome.noConfusion h
  | some entry =>
    simp only [h0] at h
    by_cases hm : fp ∈ entry.files
    · rw [if_pos hm] at h
      exact ⟨entry, rfl, readContent_ok _ _ _ _ h, hm⟩
    · rw [if_neg hm] at h
      exact Outcome.noConfusion h

/-- C8: a successful read (project or library) is always for a path of the
entry's scanned listing at response time, and since listings are computed
relative to the entry's base directory, no successful read escapes that base:
in particular a relative path containing a parent component always fails with
not-found, even when its target exists on disk. -/
theorem C8_reads_confined (s : ServerState) (pn libn fp : String)
    (hwf : wfRoot s.root = true)
    (hpc : ∀ p ∈ s.projectCache, p.2.path = [p.1] ∧
      ∀ str ∈ p.2.files, ".." ∉ pathParts str)
    (hlc : ∀ p ∈ s.libraryCache, ∀ str ∈ p.2.files, ".." ∉ pathParts str) :
    (∀ r s', read_file s pn fp = (.ok r, s') →
      ∃ entry, assocLookup s'.projectCache pn = some entry ∧
        r.file_path = fp ∧ fp ∈ entry.files) ∧
    (∀ r, read_library_file s libn fp = .ok r →
      ∃ entry, assocLookup s.libraryCache libn = some entry ∧
        r.file_path = fp ∧ fp ∈ entry.files) ∧
    (".." ∈ pathParts fp →
      (∃ d s', read_file s pn fp = (.err 404 d, s')) ∧
      (∃ d, read_library_file s libn fp = .err 404 d)) := by
  refine ⟨?_, fun r h => read_library_file_ok_mem s libn fp r h, ?_⟩
  · intro r s' h
    cases h0 : assocLookup s.projectCache pn with
    | none =>
      have hh : read_file_core (refresh_project_cache s pn) pn fp = (.ok r, s') := by
        simp only [read_file, h0] at h
        exact h
      exact read_file_core_ok_mem _ _ _ _ _ hh
    | some entry0 =>
      have hh : read_file_core s pn fp = (.ok r, s') := by
        simp only [read_file, h0] at h
        exact h
      exact read_file_core_ok_mem _ _ _ _ _ hh
  · intro hdd
    constructor
    · cases h0 : assocLookup s.projectCache pn with
      | some entry0 =>
        have hEOK : ∀ entry, assocLookup s.projectCache pn = some entry →
            entry.path = [pn] ∧ ∀ str ∈ entry.files, ".." ∉ pathParts str := by
          intro entry h
          exact hpc (pn, entry) (assocLookup_mem _ _ _ h)
        obtain ⟨d, s', hcore⟩ := read_file_core_dotdot s pn fp hwf hEOK hdd
        refine ⟨d, s', ?_⟩
        simp only [read_file, h0]
        exact hcore
      | none =>
        have hroot : (refresh_project_cache s pn).root = s.root := (refresh_root_eq s pn).1
        have hEOK : ∀ entry,
            assocLookup (refresh_project_cache s pn).projectCache pn = some entry →
            entry.path = [pn] ∧ ∀ str ∈ entry.files, ".." ∉ pathParts str := by
          intro entry h
          rw [refresh_lookup_self] at h
          cases hf : findAt s.root [pn] with
          | none => rw [hf] at h; exact Option.noConfusion h
          | some e =>
            simp only [hf, Option.some.injEq] at h
            subst h
            refine ⟨rfl, ?_⟩
            have hwfe : wfFS e = true := wfFS_find? [pn] (.dir s.root) e hwf hf
            exact fun str hs => get_files_in_dir_no_dotdot e hwfe str hs
        obtain ⟨d, s', hcore⟩ := read_file_core_dotdot (refresh_project_cache s pn) pn fp
          (by rw [hroot]; exact hwf) hEOK hdd
        refine ⟨d, s', ?_⟩
        simp only [read_file, h0]
        exact hcore
    · cases h0 : assocLookup s.libraryCache libn with
      | none =>
        refine ⟨"Library not found in cache", ?_⟩
        unfold read_library_file
        rw [h0]
      | some entry =>
        have hmiss : fp ∉ entry.files :=
          fun hmem => hlc (libn, entry) (assocLookup_mem _ _ _ h0) fp hmem hdd
        refine ⟨"File not found in this library", ?_⟩
        simp only [read_library_file, h0]
        rw [if_neg hmiss]

/-- Witness for C8: a parent-escaping path is rejected with 404 for both a
project read and a library read, although its target exists on disk. -/
theorem C8_witness :
    wfRoot [("P", FSEntry.dir []), ("secret.txt", FSEntry.file "s")] = true ∧
    ".." ∈ pathParts "../secret.txt" ∧
    (∃ d s', read_file
      ⟨[("P", FSEntry.dir []), ("secret.txt", FSEntry.file "s")],
        [("P", ⟨["P"], []⟩)], [("L", ⟨["libraries", "L"], []⟩)]⟩
      "P" "../secret.txt" = (.err 404 d, s')) ∧
    (∃ d, read_library_file
      ⟨[("P", FSEntry.dir []), ("secret.txt", FSEntry.file "s")],
        [("P", ⟨["P"], []⟩)], [("L", ⟨["libraries", "L"], []⟩)]⟩
      "L" "../secret.txt" = .err 404 d) := by
  have hwf : wfRoot [("P", FSEntry.dir []), ("secret.txt", FSEntry.file "s")] = true := by
    simp [wfRoot, wfFS, wfChildren, noDupKeys, goodNameB]
  have hdd : ".." ∈ pathParts "../secret.txt" := by decide
  have hpc : ∀ p ∈ ([("P", (⟨["P"], []⟩ : CacheEntry))] : Cache),
      p.2.path = [p.1] ∧ ∀ str ∈ p.2.files, ".." ∉ pathParts str := by
    intro p hp
    simp only [List.mem_singleton] at hp
    subst hp
    exact ⟨rfl, by simp⟩
  have hlc : ∀ p ∈ ([("L", (⟨["libraries", "L"], []⟩ : CacheEntry))] : Cache),
      ∀ str ∈ p.2.files, ".." ∉ pathParts str := by
    intro p hp
    simp only [List.mem_singleton] at hp
    subst hp
    simp
  have h := C8_reads_confined
    ⟨[("P", FSEntry.dir []), ("secret.txt", FSEntry.file "s")],
      [("P", ⟨["P"], []⟩)], [("L", ⟨["libraries", "L"], []⟩)]⟩
    "P" "L" "../secret.txt" hwf hpc hlc
  exact ⟨hwf, hdd, (h.2.2 hdd).1, (h.2.2 hdd).2⟩

/-- C1: for a cached project and a requested relative path missing from the
cached listing, the endpoint checks the disk, refreshes on a hit and rechecks:
it fails with 404 exactly when the path is still absent from the rescanned
listing, and when the path is present after the rescan it returns that file's
content. -/
theorem C1_read_file_rescan (s : ServerState) (pn fp : String)
    (hwf : wfRoot s.root = true)
    (entry : CacheEntry)
    (hentry : assocLookup s.projectCache pn = some entry)
    (hpath : entry.path = [pn])
    (hmiss : fp ∉ entry.files) :
    ((∃ d s', read_file s pn fp = (.err 404 d, s')) ↔
      fp ∉ getFilesInDirAt s.root [pn]) ∧
    (fp ∈ getFilesInDirAt s.root [pn] →
      ∃ c, read_file s pn fp = (.ok ⟨fp, c⟩, refresh_project_cache s pn) ∧
        findAt s.root ([pn] ++ pathParts fp) = some (.file c)) := by
  have hrf : read_file s pn fp = read_file_core s pn fp := by
    simp only [read_file, hentry]
  have hred := read_file_core_eq_of_entry s pn fp entry hentry hmiss
  rw [hpath] at hred
  cases hex : existsAt s.root [pn] (pathParts fp) with
  | false =>
    have hres : read_file s pn fp = (.err 404 "File not found in project", s) := by
      rw [hrf, hred, if_pos hex]
    have hnot : fp ∉ getFilesInDirAt s.root [pn] := by
      intro hmem
      unfold getFilesInDirAt at hmem
      cases hf : findAt s.root [pn] with
      | none => rw [hf] at hmem; simp at hmem
      | some e =>
        rw [hf] at hmem
        obtain ⟨c, hfind, hresolve⟩ := listing_to_disk s.root hwf pn fp e hf hmem
        have : existsAt s.root [pn] (pathParts fp) = true := by
          unfold existsAt
          rw [hresolve]
          rfl
        rw [this] at hex
        exact Bool.noConfusion hex
    refine ⟨⟨fun _ => hnot, fun _ => ⟨_, _, hres⟩⟩, fun hmem => absurd hmem hnot⟩
  | true =>
    have hexne : ¬ existsAt s.root [pn] (pathParts fp) = false := by
      rw [hex]; simp
    have hbase : (findAt s.root [pn]).isSome = true :=
      findAt_base_of_resolve s.root (pathParts fp) [pn] hex
    obtain ⟨e, he⟩ := Option.isSome_iff_exists.mp hbase
    have hlist : getFilesInDirAt s.root [pn] = get_files_in_dir e := by
      unfold getFilesInDirAt
      rw [he]
    have hl := refresh_lookup_self s pn
    rw [he] at hl
    by_cases hmem : fp ∈ get_files_in_dir e
    · obtain ⟨c, hfind, hresolve⟩ := listing_to_disk s.root hwf pn fp e he hmem
      have hcontent : readContent (refresh_project_cache s pn).root [pn] fp =
          .ok ⟨fp, c⟩ := by
        rw [(refresh_root_eq s pn).1]
        exact readContent_eval s.root [pn] fp _ c hresolve hfind
      have hres : read_file s pn fp = (.ok ⟨fp, c⟩, refresh_project_cache s pn) := by
        rw [hrf, hred, if_neg hexne]
        simp only [hl]
        rw [if_pos hmem, hcontent]
      refine ⟨⟨?_, ?_⟩, fun _ => ⟨c, hres, hfind⟩⟩
      · rintro ⟨d, s', heq⟩
        rw [hres] at heq
        simp at heq
      · intro hno
        rw [hlist] at hno
        exact absurd hmem hno
    · have hres : read_file s pn fp =
          (.err 404 "File not found in project after refresh",
            refresh_project_cache s pn) := by
        rw [hrf, hred, if_neg hexne]
        simp only [hl]
        rw [if_neg hmem]
      refine ⟨⟨fun _ => ?_, fun _ => ⟨_, _, hres⟩⟩, fun hm => ?_⟩
      · rw [hlist]; exact hmem
      · rw [hlist] at hm; exact absurd hm hmem

/-- Witness for C1: a stale cached listing misses a file that exists on disk;
the read triggers the rescan-then-recheck and returns the file's content. -/
theorem C1_witness :
    wfRoot [("Blink", FSEntry.dir
      [("Blink.ino", FSEntry.file "void"), ("extra.txt", FSEntry.file "hi")])] = true ∧
    "extra.txt" ∉ (["Blink.ino"] : List String) ∧
    "extra.txt" ∈ getFilesInDirAt
      [("Blink", FSEntry.dir
        [("Blink.ino", FSEntry.file "void"), ("extra.txt", FSEntry.file "hi")])] ["Blink"] ∧
    (∃ c, read_file
        ⟨[("Blink", FSEntry.dir
          [("Blink.ino", FSEntry.file "void"), ("extra.txt", FSEntry.file "hi")])],
          [("Blink", ⟨["Blink"], ["Blink.ino"]⟩)], []⟩ "Blink" "extra.txt" =
        (.ok ⟨"extra.txt", c⟩,
          refresh_project_cache
            ⟨[("Blink", FSEntry.dir
              [("Blink.ino", FSEntry.file "void"), ("extra.txt", FSEntry.file "hi")])],
              [("Blink", ⟨["Blink"], ["Blink.ino"]⟩)], []⟩ "Blink") ∧
      findAt [("Blink", FSEntry.dir
          [("Blink.ino", FSEntry.file "void"), ("extra.txt", FSEntry.file "hi")])]
        (["Blink"] ++ pathParts "extra.txt") = some (.file c)) := by
  have hwf : wfRoot [("Blink", FSEntry.dir
      [("Blink.ino", FSEntry.file "void"), ("extra.txt", FSEntry.file "hi")])] = true := by
    simp [wfRoot, wfFS, wfChildren, noDupKeys, goodNameB]
  have hmiss : "extra.txt" ∉ (["Blink.ino"] : List String) := by decide
  have hwalk : walkFiles (FSEntry.dir
      [("Blink.ino", FSEntry.file "void"), ("extra.txt", FSEntry.file "hi")]) =
      [["Blink.ino"], ["extra.txt"]] := by
    simp [walkFiles, walkChildren, keepFileB, startsWithDot]
  have hfiles : get_files_in_dir (FSEntry.dir
      [("Blink.ino", FSEntry.file "void"), ("extra.txt", FSEntry.file "hi")]) =
      ["Blink.ino", "extra.txt"] := by
    unfold get_files_in_dir
    rw [hwalk]
    decide
  have hmem : "extra.txt" ∈ getFilesInDirAt
      [("Blink", FSEntry.dir
        [("Blink.ino", FSEntry.file "void"), ("extra.txt", FSEntry.file "hi")])]
      ["Blink"] := by
    show "extra.txt" ∈ get_files_in_dir (FSEntry.dir
      [("Blink.ino", FSEntry.file "void"), ("extra.txt", FSEntry.file "hi")])
    rw [hfiles]
    decide
  have h := C1_read_file_rescan
    ⟨[("Blink", FSEntry.dir
      [("Blink.ino", FSEntry.file "void"), ("extra.txt", FSEntry.file "hi")])],
      [("Blink", ⟨["Blink"], ["Blink.ino"]⟩)], []⟩ "Blink" "extra.txt" hwf
    ⟨["Blink"], ["Blink.ino"]⟩ rfl rfl hmiss
  exact ⟨hwf, hmiss, hmem, h.2 hmem⟩

end ArduinoServer
